import Mathlib

/-!
Verification development for the batch file renaming tool (`batch_rename.py`).

The tool plans and applies batch renames of files in a directory according to a
user pattern with placeholders (`counter`, `orig`, `ext`, `date`, `mtime`,
`prefix`, `suffix`), resolves destination collisions by numeric suffixing,
persists the applied mapping as JSON, and can undo a persisted mapping.

The embedding below models Python strings as lists of characters, `pathlib`
paths as a parent-directory component list plus a file name (with `stem` and
`suffix` derived from the name exactly as `pathlib` derives them), and the
filesystem as the list of currently existing paths.  External effects (file
modification times, the EXIF reader, rename failures) are supplied by oracles
in an `Env` structure, so the planning and execution loop of `main` becomes a
pure function from configuration, oracles, the enumerated file list and the
initial filesystem to a `RunResult`.
-/

set_option maxHeartbeats 1000000

namespace BatchRename

/-- Python strings, modelled as lists of characters. -/
abbrev Str := List Char

/-- Characters stripped by Python `str.strip()` (the `str.isspace` set). -/
def isPySpace (c : Char) : Bool :=
  let k := c.toNat
  (9 ≤ k && k ≤ 13) || (28 ≤ k && k ≤ 32) || k == 133 || k == 160 || k == 5760 ||
  (8192 ≤ k && k ≤ 8202) || k == 8232 || k == 8233 || k == 8239 || k == 8287 || k == 12288

/-- Characters matched by `INVALID_CHARS_RE`, i.e. `[\\/:*?"<>|\x00-\x1f]`. -/
def isInvalidChar (c : Char) : Bool :=
  c == '\\' || c == '/' || c == ':' || c == '*' || c == '?' || c == '\"' ||
  c == '<' || c == '>' || c == '|' || c.toNat ≤ 31

/-- Python `str.strip()`: drop leading and trailing whitespace. -/
def pyStrip (s : Str) : Str :=
  List.rdropWhile isPySpace (s.dropWhile isPySpace)

/-- `sanitize_filename`: replace illegal characters by `_`, strip surrounding
whitespace, and fall back to `"_"` when the result is empty. -/
def sanitize_filename (s : Str) : Str :=
  let t := pyStrip (s.map (fun c => if isInvalidChar c then '_' else c))
  if t = [] then ['_'] else t

/-- Decimal rendering with explicit recursion depth; `fuel` bounds the number
of digits, so any `fuel` with `n < 10 ^ fuel` renders all of `n`. -/
def natStrAux : Nat → Nat → Str
  | 0, _ => []
  | fuel + 1, n =>
    if n < 10 then [Nat.digitChar n]
    else natStrAux fuel (n / 10) ++ [Nat.digitChar (n % 10)]

/-- Decimal rendering of a natural number, as Python `str` renders it
(`n < 10 ^ (n + 1)`, so the depth bound is never reached). -/
def natStr (n : Nat) : Str := natStrAux (n + 1) n

/-- Decimal rendering of an integer, as Python `str` renders it. -/
def intStr (i : Int) : Str :=
  if i < 0 then '-' :: natStr i.natAbs else natStr i.natAbs

/-- Decode a list of decimal digit characters (left fold, as `int` parsing). -/
def decodeNat (s : Str) : Nat :=
  s.foldl (fun a c => a * 10 + (c.toNat - 48)) 0

/-- A `pathlib.Path`: parent directory components plus the file name. -/
structure PathT where
  dir : List Str
  name : Str
deriving DecidableEq

/-- Index of the last `'.'` in a name, if any (Python `str.rfind('.')`). -/
def lastDotIdx : Str → Option Nat
  | [] => none
  | c :: cs =>
    match lastDotIdx cs with
    | some j => some (j + 1)
    | none => if c = '.' then some 0 else none

/-- `pathlib` suffix of a name: `name[i:]` for the last dot index `i` when
`0 < i < len(name) - 1`, else the empty string. -/
def nameSuffix (n : Str) : Str :=
  match lastDotIdx n with
  | some i => if 0 < i ∧ i < n.length - 1 then n.drop i else []
  | none => []

/-- `pathlib` stem of a name: everything before the recognized suffix. -/
def nameStem (n : Str) : Str :=
  match lastDotIdx n with
  | some i => if 0 < i ∧ i < n.length - 1 then n.take i else n
  | none => n

/-- `Path.suffix` of a path. -/
def PathT.suffix (p : PathT) : Str := nameSuffix p.name

/-- `Path.stem` of a path. -/
def PathT.stem (p : PathT) : Str := nameStem p.name

/-- Extension without leading dots: `p.suffix.lstrip('.')`. -/
def extOfName (n : Str) : Str := (nameSuffix n).dropWhile (fun c => c = '.')

/-- Substring containment, Python `sub in s`. -/
def hasSub (sub s : Str) : Bool :=
  (List.range (s.length + 1)).any (fun i => decide ((s.drop i).take sub.length = sub))

/-- Replace every (leftmost, non-overlapping) occurrence of `pat` by `rep`,
as `re.sub` does with a literal pattern. -/
def replaceAll (pat rep s : Str) : Str :=
  if hp : pat = [] then s
  else if hs : s = [] then []
  else if pat.isPrefixOf s then rep ++ replaceAll pat rep (s.drop pat.length)
  else s.head hs :: replaceAll pat rep s.tail
termination_by s.length
decreasing_by
  · have h1 : 0 < pat.length := List.length_pos.mpr hp
    have h2 : 0 < s.length := List.length_pos.mpr hs
    simp only [List.length_drop]
    omega
  · have h2 : 0 < s.length := List.length_pos.mpr hs
    simp only [List.length_tail]
    omega

/-- One parsed unit of a format pattern: a literal character or a
`{placeholder:spec}` field. -/
inductive Tok where
  | lit : Char → Tok
  | field : Str → Str → Tok
deriving DecidableEq

/-- Errors raised by `str.format_map`: a missing placeholder (`KeyError`) or a
malformed pattern / invalid format specifier (`ValueError`). -/
inductive FmtErr where
  | keyError : Str → FmtErr
  | valueError : FmtErr
deriving DecidableEq

/-- Characters ending a field name in a format pattern. -/
def fieldNameEnd (c : Char) : Bool := c == ':' || c == '}' || c == '{'

/-- Characters ending a format specifier in a format pattern. -/
def specEnd (c : Char) : Bool := c == '}' || c == '{'

/-- Parse a Python format pattern into literal and `field` tokens, handling
`\x7b\x7b` and `\x7d\x7d` escapes; stray braces are a `ValueError`.  Each step
consumes at least one character and one unit of fuel, so fuel `length + 1`
(see `parseFmt`) is never exhausted. -/
def parseFmtAux : Nat → Str → Except FmtErr (List Tok)
  | _, [] => .ok []
  | 0, _ :: _ => .error .valueError
  | fuel + 1, '{' :: '{' :: rest => (parseFmtAux fuel rest).map (fun ts => Tok.lit '{' :: ts)
  | fuel + 1, '}' :: '}' :: rest => (parseFmtAux fuel rest).map (fun ts => Tok.lit '}' :: ts)
  | fuel + 1, '{' :: rest =>
    match rest.dropWhile (fun c => !fieldNameEnd c) with
    | '}' :: r3 =>
      (parseFmtAux fuel r3).map
        (fun ts => Tok.field (rest.takeWhile (fun c => !fieldNameEnd c)) [] :: ts)
    | ':' :: r3 =>
      match r3.dropWhile (fun c => !specEnd c) with
      | '}' :: r5 =>
        (parseFmtAux fuel r5).map (fun ts =>
          Tok.field (rest.takeWhile (fun c => !fieldNameEnd c))
            (r3.takeWhile (fun c => !specEnd c)) :: ts)
      | _ => .error .valueError
    | _ => .error .valueError
  | _ + 1, '}' :: _ => .error .valueError
  | fuel + 1, c :: rest => (parseFmtAux fuel rest).map (fun ts => Tok.lit c :: ts)

/-- Parse a Python format pattern. -/
def parseFmt (s : Str) : Except FmtErr (List Tok) := parseFmtAux (s.length + 1) s

/-- A date-time value (the fields of `datetime` the tool uses). -/
structure DTime where
  year : Nat
  month : Nat
  day : Nat
  hour : Nat
  minute : Nat
  second : Nat
deriving DecidableEq

/-- A value in the per-file naming context. -/
inductive Value where
  | vInt : Int → Value
  | vStr : Str → Value
  | vDate : DTime → Value
deriving DecidableEq

/-- Render a natural number zero-padded to width `w`. -/
def padNat (w : Nat) (n : Nat) : Str :=
  List.replicate (w - (natStr n).length) '0' ++ natStr n

/-- Right-align an integer to width `w`, zero- or space-filled, as Python
integer formatting does (zeros go after the sign). -/
def padInt (i : Int) (w : Nat) (zero : Bool) : Str :=
  if w ≤ (intStr i).length then intStr i
  else if zero then
    if i < 0 then '-' :: (List.replicate (w - (intStr i).length) '0' ++ natStr i.natAbs)
    else List.replicate (w - (intStr i).length) '0' ++ natStr i.natAbs
  else List.replicate (w - (intStr i).length) ' ' ++ intStr i

/-- Format an integer with a format specifier of the shape
`[0][width][d]` (e.g. `04d`); other specifiers are a `ValueError`. -/
def formatInt (i : Int) (spec : Str) : Except FmtErr Str :=
  if spec = [] then .ok (intStr i)
  else
    let zero := decide (spec.head? = some '0')
    let rest := if spec.head? = some '0' then spec.tail else spec
    let rest2 := rest.dropWhile Char.isDigit
    if rest2 = [] ∨ rest2 = ['d'] then
      .ok (padInt i (decodeNat (rest.takeWhile Char.isDigit)) zero)
    else .error .valueError

/-- One `strftime` conversion: `%Y %m %d %H %M %S` are rendered, `%%` is a
literal percent, any other code is passed through. -/
def strfCode (c : Char) (d : DTime) : Str :=
  if c = 'Y' then padNat 4 d.year
  else if c = 'm' then padNat 2 d.month
  else if c = 'd' then padNat 2 d.day
  else if c = 'H' then padNat 2 d.hour
  else if c = 'M' then padNat 2 d.minute
  else if c = 'S' then padNat 2 d.second
  else if c = '%' then ['%']
  else ['%', c]

/-- `datetime.strftime` on the conversions the tool's patterns use. -/
def strftime (spec : Str) (d : DTime) : Str :=
  match spec with
  | [] => []
  | '%' :: c :: rest => strfCode c d ++ strftime rest d
  | '%' :: [] => ['%']
  | c :: rest => c :: strftime rest d

/-- `str(datetime)`: `YYYY-MM-DD HH:MM:SS`. -/
def dtStr (d : DTime) : Str :=
  padNat 4 d.year ++ '-' :: padNat 2 d.month ++ '-' :: padNat 2 d.day ++
  ' ' :: padNat 2 d.hour ++ ':' :: padNat 2 d.minute ++ ':' :: padNat 2 d.second

/-- Format one context value against a field's format specifier. -/
def formatValue (v : Value) (spec : Str) : Except FmtErr Str :=
  match v with
  | .vStr s => if spec = [] then .ok s else .error .valueError
  | .vInt i => formatInt i spec
  | .vDate d => if spec = [] then .ok (dtStr d) else .ok (strftime spec d)

/-- The per-file naming context built by `main` (the `mapping` dict). -/
structure Ctx where
  counter : Int
  orig : Str
  ext : Str
  date : DTime
  mtime : DTime
  pfx : Str
  sfx : Str

/-- Look a placeholder name up in the naming context. -/
def Ctx.lookup (ctx : Ctx) (n : Str) : Option Value :=
  if n = "counter".data then some (.vInt ctx.counter)
  else if n = "orig".data then some (.vStr ctx.orig)
  else if n = "ext".data then some (.vStr ctx.ext)
  else if n = "date".data then some (.vDate ctx.date)
  else if n = "mtime".data then some (.vDate ctx.mtime)
  else if n = "prefix".data then some (.vStr ctx.pfx)
  else if n = "suffix".data then some (.vStr ctx.sfx)
  else none

/-- Whether a placeholder name is one of the seven context keys. -/
def isKnownName (n : Str) : Bool :=
  n == "counter".data || n == "orig".data || n == "ext".data || n == "date".data ||
  n == "mtime".data || n == "prefix".data || n == "suffix".data

/-- Render a parsed token list against a context, failing on the first unknown
placeholder or invalid specifier (fields are evaluated left to right). -/
def renderToks (ctx : Ctx) : List Tok → Except FmtErr Str
  | [] => .ok []
  | .lit c :: ts => (renderToks ctx ts).map (fun s => c :: s)
  | .field n sp :: ts =>
    match ctx.lookup n with
    | none => .error (.keyError n)
    | some v =>
      match formatValue v sp with
      | .error e => .error e
      | .ok s => (renderToks ctx ts).map (fun r => s ++ r)

/-- `pattern.format_map(mapping)`. -/
def format_map (ctx : Ctx) (pattern : Str) : Except FmtErr Str :=
  match parseFmt pattern with
  | .error e => .error e
  | .ok ts => renderToks ctx ts

/-- The candidate probed by `unique_target` at index `i`:
`parent / (stem + "_" + str(i) + suffix)`. -/
def mkCand (dir : List Str) (stem sfx : Str) (i : Nat) : PathT :=
  ⟨dir, stem ++ '_' :: (natStr i ++ sfx)⟩

/-- The probe loop of `unique_target`, with enough fuel to always find a free
candidate (at most `|fs|` candidates can be taken). -/
def uniqueLoop (fs : List PathT) (dir : List Str) (stem sfx : Str) : Nat → Nat → PathT
  | 0, i => mkCand dir stem sfx i
  | fuel + 1, i =>
    if mkCand dir stem sfx i ∈ fs then uniqueLoop fs dir stem sfx fuel (i + 1)
    else mkCand dir stem sfx i

/-- `unique_target`: return the path unchanged if it does not exist, else probe
`stem_1`, `stem_2`, ... until an unused path is found. -/
def unique_target (fs : List PathT) (p : PathT) : PathT :=
  if p ∈ fs then uniqueLoop fs p.dir (nameStem p.name) (nameSuffix p.name) (fs.length + 1) 1
  else p

/-- External oracles: modification times, the EXIF-reader capability (which
may raise), and which renames fail on disk. -/
structure Env where
  mtimeOf : PathT → DTime
  exifCap : PathT → Except Unit (Option DTime)
  pilAvailable : Bool
  renameFail : PathT → PathT → Bool

/-- `get_exif_datetime`: `None` when PIL is unavailable; any exception from
the reader is caught and degrades to `None`. -/
def get_exif_datetime (pil : Bool) (cap : PathT → Except Unit (Option DTime))
    (p : PathT) : Option DTime :=
  if pil = false then none
  else
    match cap p with
    | .error _ => none
    | .ok r => r

/-- The command line configuration relevant to planning and execution. -/
structure Config where
  pattern : Str
  pfx : Str
  sfx : Str
  start : Int
  digits : Int
  exifDate : Bool
  apply : Bool
  verbose : Bool

/-- The literal token `\x7bcounter\x7d` searched for by the `--digits` rewrite. -/
def counterTok : Str := '{' :: ("counter".data ++ ['}'])

/-- The literal `\x7bext` substring the extension decision is keyed on. -/
def extProbe : Str := '{' :: "ext".data

/-- The replacement `\x7bcounter:0<digits>d\x7d` injected by `--digits`. -/
def counterPad (d : Int) : Str := '{' :: ("counter:0".data ++ intStr d ++ ['d', '}'])

/-- The pattern after the `--digits` rewrite of bare `\x7bcounter\x7d`. -/
def effPattern (cfg : Config) : Str :=
  if cfg.digits ≠ 0 ∧ hasSub counterTok cfg.pattern = true then
    replaceAll counterTok (counterPad cfg.digits) cfg.pattern
  else cfg.pattern

/-- The date chosen for a file: the EXIF date when requested and available,
else the modification time (`date_dt = exif_dt or mtime_dt`). -/
def dateOf (cfg : Config) (env : Env) (p : PathT) : DTime :=
  (if cfg.exifDate = true then get_exif_datetime env.pilAvailable env.exifCap p
   else none).getD (env.mtimeOf p)

/-- The naming context `main` builds for one file at one counter value. -/
def ctxOf (cfg : Config) (env : Env) (counter : Int) (p : PathT) : Ctx :=
  { counter := counter, orig := nameStem p.name, ext := extOfName p.name,
    date := dateOf cfg env p, mtime := env.mtimeOf p, pfx := cfg.pfx, sfx := cfg.sfx }

/-- The full target name: the sanitized expansion, with the original extension
appended unless the pattern contains the raw substring `\x7bext`. -/
def newNameOf (cfg : Config) (p : PathT) (base : Str) : Str :=
  if hasSub extProbe (effPattern cfg) = true then sanitize_filename base
  else sanitize_filename base ++ (if extOfName p.name = [] then [] else '.' :: extOfName p.name)

/-- Trace record for one processed file: the values `main` computes for it
(counter, chosen date, expanded base name, full target name, resolved
destination, and whether the on-disk rename was attempted and succeeded). -/
structure FileRec where
  src : PathT
  counterVal : Int
  dateVal : DTime
  base : Str
  newName : Str
  dst : PathT
  renamed : Bool
deriving DecidableEq

/-- The state threaded through the per-file loop of `main`. -/
structure LoopState where
  counter : Int
  fs : List PathT
  ops : List (PathT × PathT)
  recs : List FileRec
  reported : List (Str × Str)
deriving DecidableEq

/-- The outcome of a planning/execution run of `main`. -/
structure RunResult where
  aborted : Bool
  ops : List (PathT × PathT)
  recs : List FileRec
  fs : List PathT
  mapWritten : Option (List (PathT × PathT))
  reported : List (Str × Str)
deriving DecidableEq

/-- The record `main` builds for one file: expand, sanitize, append the
extension unless the pattern declares one, resolve uniqueness against the
current filesystem, and attempt the rename in apply mode (a rename succeeds
when the oracle does not fail it and the source exists). -/
def mkRec (cfg : Config) (env : Env) (p : PathT) (st : LoopState) (base : Str) : FileRec :=
  let nn := newNameOf cfg p base
  let target := unique_target st.fs ⟨p.dir, nn⟩
  { src := p, counterVal := st.counter, dateVal := dateOf cfg env p, base := base,
    newName := nn, dst := target,
    renamed := cfg.apply && !(env.renameFail p target) && decide (p ∈ st.fs) }

/-- One iteration of the `for p in files` loop of `main`: returns the new
state, or the state at abort when pattern expansion fails (`sys.exit(1)`). -/
def stepFile (cfg : Config) (env : Env) (p : PathT) (st : LoopState) :
    Except LoopState LoopState :=
  match format_map (ctxOf cfg env st.counter p) (effPattern cfg) with
  | .error _ => .error st
  | .ok base =>
    let r := mkRec cfg env p st base
    .ok { counter := st.counter + 1,
          fs := if r.renamed = true then r.dst :: st.fs.erase p else st.fs,
          ops := st.ops ++ [(p, r.dst)],
          recs := st.recs ++ [r],
          reported := if cfg.verbose || !cfg.apply then st.reported ++ [(p.name, r.dst.name)]
                      else st.reported }

/-- The per-file loop of `main`, followed by the mapping write (the mapping
file is written only in apply mode, and not when the run aborted). -/
def processFiles (cfg : Config) (env : Env) : List PathT → LoopState → RunResult
  | [], st =>
    { aborted := false, ops := st.ops, recs := st.recs, fs := st.fs,
      mapWritten := if cfg.apply = true then some st.ops else none,
      reported := st.reported }
  | p :: rest, st =>
    match stepFile cfg env p st with
    | .error stA =>
      { aborted := true, ops := stA.ops, recs := stA.recs, fs := stA.fs,
        mapWritten := none, reported := stA.reported }
    | .ok st' => processFiles cfg env rest st'

/-- The planning/execution part of `main` over an already enumerated and
sorted file list (with the early exit when no files match). -/
def mainRun (cfg : Config) (env : Env) (files : List PathT) (fs₀ : List PathT) : RunResult :=
  if files = [] then
    { aborted := false, ops := [], recs := [], fs := fs₀, mapWritten := none, reported := [] }
  else processFiles cfg env files { counter := cfg.start, fs := fs₀, ops := [], recs := [], reported := [] }

/-- Trace record for one undo record: whether it was reversed. -/
structure UndoRec where
  src : PathT
  dst : PathT
  reversed : Bool
deriving DecidableEq

/-- The outcome of an undo run. -/
structure UndoResult where
  recs : List UndoRec
  fs : List PathT
  reversedOps : List (PathT × PathT)
deriving DecidableEq

/-- The undo loop: for each record in stored order, move `dst` back to `src`
only if `dst` exists and `src` does not; otherwise skip the record. -/
def undoGo : List (PathT × PathT) → UndoResult → UndoResult
  | [], acc => acc
  | (s, d) :: rest, acc =>
    if d ∈ acc.fs ∧ s ∉ acc.fs then
      undoGo rest { recs := acc.recs ++ [⟨s, d, true⟩],
                    fs := s :: acc.fs.erase d,
                    reversedOps := acc.reversedOps ++ [(d, s)] }
    else
      undoGo rest { recs := acc.recs ++ [⟨s, d, false⟩], fs := acc.fs,
                    reversedOps := acc.reversedOps }

/-- The undo mode of `main`, over a parsed mapping and the current filesystem. -/
def undoRun (mapping : List (PathT × PathT)) (fs₀ : List PathT) : UndoResult :=
  undoGo mapping { recs := [], fs := fs₀, reversedOps := [] }

/-- All paths mentioned by a mapping (sources and destinations, in order). -/
def pathsOf (mapping : List (PathT × PathT)) : List PathT :=
  mapping.flatMap (fun q => [q.1, q.2])

/-- A fixed probe context, used to express that whether a pattern expands
without error does not depend on the per-file values. -/
def probeCtx : Ctx :=
  ⟨0, [], [], ⟨0, 0, 0, 0, 0, 0⟩, ⟨0, 0, 0, 0, 0, 0⟩, [], []⟩

/-- Whether a pattern expands without error (a property of the pattern). -/
def fmtOkB (pattern : Str) : Bool :=
  match format_map probeCtx pattern with
  | .ok _ => true
  | .error _ => false

/-- A benign oracle environment: fixed mtimes, EXIF reader absent, renames
never fail. -/
def envBase : Env :=
  ⟨fun _ => ⟨2020, 1, 1, 0, 0, 0⟩, fun _ => .ok none, false, fun _ _ => false⟩

/-- An environment whose rename syscalls always fail. -/
def envFailAll : Env :=
  ⟨fun _ => ⟨2020, 1, 1, 0, 0, 0⟩, fun _ => .ok none, false, fun _ _ => true⟩

/-- An environment whose EXIF reader always raises. -/
def envRaise : Env :=
  ⟨fun _ => ⟨2020, 1, 1, 0, 0, 0⟩, fun _ => .error (), true, fun _ _ => false⟩

/-- Concrete file `a.jpg` in the scanned directory. -/
def pAJpg : PathT := ⟨[], "a.jpg".data⟩

/-- Concrete file `b.jpg` in the scanned directory. -/
def pBJpg : PathT := ⟨[], "b.jpg".data⟩

/-- Concrete file `a.` (trailing dot, so its `pathlib` suffix is empty). -/
def pDot : PathT := ⟨[], "a.".data⟩

/-- Preview-mode configuration with the constant pattern `pic`. -/
def cfgPic : Config := ⟨"pic".data, [], [], 1, 0, false, false, false⟩

/-- Apply-mode configuration with the constant pattern `x`. -/
def cfgX : Config := ⟨"x".data, [], [], 1, 0, false, true, false⟩

/-- Preview-mode configuration with the pattern `\x7b\x7bext\x7d\x7d`
(a literal-brace escape, not an `ext` placeholder). -/
def cfgBraceExt : Config :=
  ⟨'{' :: '{' :: ("ext".data ++ ['}', '}']), [], [], 1, 0, false, false, false⟩

/-- Preview-mode configuration with the pattern `\x7bunknown\x7d_\x7bcounter\x7d`. -/
def cfgUnknown : Config :=
  ⟨('{' :: ("unknown".data ++ ['}', '_'])) ++ counterTok, [], [], 1, 0, false, false, false⟩

/-- Concrete path `a` (no directory). -/
def pa : PathT := ⟨[], "a".data⟩

/-- Concrete path `a_1`. -/
def pa1 : PathT := ⟨[], "a_1".data⟩

/-- Concrete path `b`. -/
def pb : PathT := ⟨[], "b".data⟩

/-- A mapping an apply run can produce (`a` went to `a_1`, then `b` went to
`a`), used to probe double undo. -/
def mapCross : List (PathT × PathT) := [(pa, pa1), (pb, pa)]

/-- A mapping whose records share no paths. -/
def mapDisjoint : List (PathT × PathT) := [(pa, pb)]

/-- Preview-mode configuration with pattern `pic` and EXIF dates requested. -/
def cfgPicExif : Config := ⟨"pic".data, [], [], 1, 0, true, false, false⟩

/-! ### Decimal rendering -/

theorem digitChar_toNat_of_lt10 : ∀ d : Nat, d < 10 → (Nat.digitChar d).toNat = 48 + d := by
  decide

theorem digitChar_ne_dot_of_lt10 : ∀ d : Nat, d < 10 → Nat.digitChar d ≠ '.' := by
  decide

theorem decodeNat_natStrAux (fuel : Nat) : ∀ n, n < 10 ^ fuel →
    decodeNat (natStrAux fuel n) = n := by
  induction fuel with
  | zero =>
    intro n hn
    have h0 : n = 0 := by simpa using hn
    subst h0
    rfl
  | succ fuel ih =>
    intro n hn
    by_cases h : n < 10
    · simp only [natStrAux, if_pos h, decodeNat, List.foldl_cons, List.foldl_nil]
      rw [digitChar_toNat_of_lt10 n h]
      omega
    · simp only [natStrAux, if_neg h]
      have hdiv : n / 10 < 10 ^ fuel := by
        have hmul : 10 ^ (fuel + 1) = 10 ^ fuel * 10 := pow_succ 10 fuel
        exact (Nat.div_lt_iff_lt_mul (by omega)).mpr (by omega)
      have hd := ih (n / 10) hdiv
      simp only [decodeNat] at hd ⊢
      rw [List.foldl_append, List.foldl_cons, List.foldl_nil, hd,
        digitChar_toNat_of_lt10 _ (Nat.mod_lt _ (by omega))]
      omega

theorem decodeNat_natStr (n : Nat) : decodeNat (natStr n) = n :=
  decodeNat_natStrAux (n + 1) n
    (lt_of_lt_of_le (Nat.lt_pow_self (by omega) n)
      (Nat.pow_le_pow_right (by omega) (by omega)))

theorem natStr_inj : Function.Injective natStr := by
  intro a b h
  have := congrArg decodeNat h
  rwa [decodeNat_natStr, decodeNat_natStr] at this

theorem natStr_ne_nil (n : Nat) : natStr n ≠ [] := by
  unfold natStr natStrAux
  by_cases h : n < 10 <;> simp [h]

theorem dot_not_mem_natStrAux (fuel : Nat) : ∀ n, '.' ∉ natStrAux fuel n := by
  induction fuel with
  | zero =>
    intro n
    simp [natStrAux]
  | succ fuel ih =>
    intro n
    by_cases h : n < 10
    · simp only [natStrAux, if_pos h, List.mem_singleton]
      exact fun hc => digitChar_ne_dot_of_lt10 n h hc.symm
    · simp only [natStrAux, if_neg h, List.mem_append, List.mem_singleton, not_or]
      exact ⟨ih (n / 10), fun hc =>
        digitChar_ne_dot_of_lt10 _ (Nat.mod_lt _ (by omega)) hc.symm⟩

theorem dot_not_mem_natStr (n : Nat) : '.' ∉ natStr n :=
  dot_not_mem_natStrAux (n + 1) n

/-! ### Last-dot computations for `pathlib` stems and suffixes -/

theorem not_mem_of_lastDotIdx_none (l : Str) (h : lastDotIdx l = none) : '.' ∉ l := by
  induction l with
  | nil => simp
  | cons c cs ih =>
    simp only [lastDotIdx] at h
    cases h2 : lastDotIdx cs with
    | some j => rw [h2] at h; cases h
    | none =>
      rw [h2] at h
      by_cases hc : c = '.'
      · rw [if_pos hc] at h; cases h
      · simp only [List.mem_cons, not_or]
        exact ⟨fun he => hc he.symm, ih h2⟩

theorem lastDotIdx_of_not_mem (l : Str) (h : '.' ∉ l) : lastDotIdx l = none := by
  induction l with
  | nil => rfl
  | cons c cs ih =>
    simp only [List.mem_cons, not_or] at h
    simp only [lastDotIdx, ih h.2]
    rw [if_neg (fun he => h.1 he.symm)]

theorem lastDotIdx_decomp (l : Str) (i : Nat) (h : lastDotIdx l = some i) :
    ∃ pre post, l = pre ++ '.' :: post ∧ pre.length = i ∧ '.' ∉ post := by
  induction l generalizing i with
  | nil => cases h
  | cons c cs ih =>
    simp only [lastDotIdx] at h
    cases h2 : lastDotIdx cs with
    | some j =>
      rw [h2] at h
      have hij : j + 1 = i := by injection h
      obtain ⟨pre, post, hdec, hlen, hpost⟩ := ih j h2
      refine ⟨c :: pre, post, ?_, ?_, hpost⟩
      · rw [hdec]; rfl
      · simp only [List.length_cons, hlen]; omega
    | none =>
      rw [h2] at h
      by_cases hc : c = '.'
      · rw [if_pos hc] at h
        have hi : (0 : Nat) = i := by injection h
        refine ⟨[], cs, ?_, hi ▸ rfl, not_mem_of_lastDotIdx_none cs h2⟩
        rw [hc]; rfl
      · rw [if_neg hc] at h; cases h

theorem lastDotIdx_append_no_dot (xs ys : Str) (h : '.' ∉ ys) :
    lastDotIdx (xs ++ ys) = lastDotIdx xs := by
  induction xs with
  | nil =>
    simp only [List.nil_append, lastDotIdx_of_not_mem ys h]
    rfl
  | cons c xs ih =>
    simp only [List.cons_append, lastDotIdx, List.append_eq, ih]

theorem lastDotIdx_append_dot (xs post : Str) (h : '.' ∉ post) :
    lastDotIdx (xs ++ '.' :: post) = some xs.length := by
  induction xs with
  | nil =>
    simp [lastDotIdx, lastDotIdx_of_not_mem post h]
  | cons c xs ih =>
    simp only [List.cons_append, lastDotIdx, List.append_eq, ih, List.length_cons]

theorem nameSuffix_ne_nil_elim (n : Str) (h : nameSuffix n ≠ []) :
    ∃ i, lastDotIdx n = some i ∧ 0 < i ∧ i < n.length - 1 ∧
      nameSuffix n = n.drop i ∧ nameStem n = n.take i := by
  cases h2 : lastDotIdx n with
  | none => exact absurd (by unfold nameSuffix; rw [h2]) h
  | some i =>
    by_cases hc : 0 < i ∧ i < n.length - 1
    · refine ⟨i, rfl, hc.1, hc.2, ?_, ?_⟩
      · unfold nameSuffix; rw [h2]; exact if_pos hc
      · unfold nameStem; rw [h2]; exact if_pos hc
    · exact absurd (by unfold nameSuffix; rw [h2]; exact if_neg hc) h

/-! ### The uniqueness resolver -/

theorem mkCand_inj (dir : List Str) (stem sfx : Str) :
    Function.Injective (mkCand dir stem sfx) := by
  intro a b h
  have h2 : stem ++ '_' :: (natStr a ++ sfx) = stem ++ '_' :: (natStr b ++ sfx) :=
    congrArg PathT.name h
  have h3 := List.append_cancel_left h2
  have h4 : natStr a ++ sfx = natStr b ++ sfx := by injection h3
  exact natStr_inj (List.append_cancel_right h4)

theorem exists_free_cand (fs : List PathT) (dir : List Str) (stem sfx : Str) (i0 : Nat) :
    ∃ k, k ≤ fs.length ∧ mkCand dir stem sfx (i0 + k) ∉ fs := by
  by_contra hc
  push_neg at hc
  have hmem : ∀ x ∈ (List.range (fs.length + 1)).map (fun k => mkCand dir stem sfx (i0 + k)),
      x ∈ fs := by
    intro x hx
    obtain ⟨k, hk, rfl⟩ := List.mem_map.mp hx
    exact hc k (by simpa using Nat.lt_succ_iff.mp (List.mem_range.mp hk))
  have hnd : ((List.range (fs.length + 1)).map (fun k => mkCand dir stem sfx (i0 + k))).Nodup := by
    refine List.Nodup.map ?_ (List.nodup_range _)
    intro a b hab
    have := mkCand_inj dir stem sfx hab
    omega
  have hlen : ((List.range (fs.length + 1)).map (fun k => mkCand dir stem sfx (i0 + k))).length
      = fs.length + 1 := by simp
  have hsub : ((List.range (fs.length + 1)).map
      (fun k => mkCand dir stem sfx (i0 + k))).toFinset ⊆ fs.toFinset := by
    intro x hx
    exact List.mem_toFinset.mpr (hmem x (List.mem_toFinset.mp hx))
  have h1 := List.toFinset_card_of_nodup hnd
  have h2 := Finset.card_le_card hsub
  have h3 := fs.toFinset_card_le
  omega

theorem uniqueLoop_spec (fs : List PathT) (dir : List Str) (stem sfx : Str) :
    ∀ fuel i0, (∃ k, k < fuel ∧ mkCand dir stem sfx (i0 + k) ∉ fs) →
      ∃ i, i0 ≤ i ∧ uniqueLoop fs dir stem sfx fuel i0 = mkCand dir stem sfx i ∧
        mkCand dir stem sfx i ∉ fs ∧ ∀ j, i0 ≤ j → j < i → mkCand dir stem sfx j ∈ fs := by
  intro fuel
  induction fuel with
  | zero =>
    intro i0 hk
    obtain ⟨k, hk, _⟩ := hk
    omega
  | succ fuel ih =>
    intro i0 hk
    obtain ⟨k, hklt, hkfree⟩ := hk
    by_cases hmem : mkCand dir stem sfx i0 ∈ fs
    · have hk0 : k ≠ 0 := by
        intro h0
        rw [h0, Nat.add_zero] at hkfree
        exact hkfree hmem
      have hshift : mkCand dir stem sfx (i0 + 1 + (k - 1)) ∉ fs := by
        have heq : i0 + 1 + (k - 1) = i0 + k := by omega
        rw [heq]; exact hkfree
      obtain ⟨i, hi1, hi2, hi3, hi4⟩ := ih (i0 + 1) ⟨k - 1, by omega, hshift⟩
      refine ⟨i, by omega, ?_, hi3, ?_⟩
      · simp only [uniqueLoop, if_pos hmem, hi2]
      · intro j hj1 hj2
        rcases Nat.eq_or_lt_of_le hj1 with hj | hj
        · rw [← hj]; exact hmem
        · exact hi4 j hj hj2
    · refine ⟨i0, Nat.le_refl _, ?_, hmem, ?_⟩
      · simp only [uniqueLoop, if_neg hmem]
      · intro j hj1 hj2
        omega

theorem unique_target_not_mem (fs : List PathT) (p : PathT) : unique_target fs p ∉ fs := by
  unfold unique_target
  by_cases hp : p ∈ fs
  · rw [if_pos hp]
    obtain ⟨k, hk, hfree⟩ := exists_free_cand fs p.dir (nameStem p.name) (nameSuffix p.name) 1
    obtain ⟨i, _, h2, h3, _⟩ := uniqueLoop_spec fs p.dir (nameStem p.name) (nameSuffix p.name)
      (fs.length + 1) 1 ⟨k, by omega, hfree⟩
    rw [h2]; exact h3
  · rw [if_neg hp]; exact hp

theorem unique_target_dir (fs : List PathT) (p : PathT) :
    (unique_target fs p).dir = p.dir := by
  unfold unique_target
  by_cases hp : p ∈ fs
  · rw [if_pos hp]
    obtain ⟨k, hk, hfree⟩ := exists_free_cand fs p.dir (nameStem p.name) (nameSuffix p.name) 1
    obtain ⟨i, _, h2, _, _⟩ := uniqueLoop_spec fs p.dir (nameStem p.name) (nameSuffix p.name)
      (fs.length + 1) 1 ⟨k, by omega, hfree⟩
    rw [h2]; rfl
  · rw [if_neg hp]

theorem dot_not_mem_underscore_natStr (i : Nat) : '.' ∉ '_' :: natStr i := by
  simp only [List.mem_cons, not_or]
  exact ⟨by decide, dot_not_mem_natStr i⟩

theorem nameSuffix_eval (n : Str) (j : Nat) (h : lastDotIdx n = some j) :
    nameSuffix n = if 0 < j ∧ j < n.length - 1 then n.drop j else [] := by
  unfold nameSuffix
  rw [h]

theorem nameStem_eval (n : Str) (j : Nat) (h : lastDotIdx n = some j) :
    nameStem n = if 0 < j ∧ j < n.length - 1 then n.take j else n := by
  unfold nameStem
  rw [h]

theorem nameSuffix_eval_none (n : Str) (h : lastDotIdx n = none) : nameSuffix n = [] := by
  unfold nameSuffix
  rw [h]

theorem nameStem_eval_none (n : Str) (h : lastDotIdx n = none) : nameStem n = n := by
  unfold nameStem
  rw [h]

/-- Suffix preservation for the probe candidates, when the original name has a
nonempty suffix, or no dot that `pathlib` could promote into a suffix. -/
theorem nameSuffix_mkCand (n : Str) (i : Nat)
    (h : nameSuffix n ≠ [] ∨ (lastDotIdx n = none ∨ lastDotIdx n = some 0)) :
    nameSuffix (nameStem n ++ '_' :: (natStr i ++ nameSuffix n)) = nameSuffix n := by
  rcases h with h | h
  · obtain ⟨idot, hdot, hpos, hlt, hsfx, hstem⟩ := nameSuffix_ne_nil_elim n h
    obtain ⟨pre, post, hdec, hlen, hpost⟩ := lastDotIdx_decomp n idot hdot
    have hdrop : n.drop idot = '.' :: post := by
      rw [hdec, ← hlen, List.drop_left]
    have htake : n.take idot = pre := by
      rw [hdec, ← hlen, List.take_left]
    rw [hsfx, hstem, hdrop, htake]
    have hassoc : pre ++ '_' :: (natStr i ++ '.' :: post) =
        (pre ++ '_' :: natStr i) ++ '.' :: post := by simp
    rw [hassoc]
    have hld := lastDotIdx_append_dot (pre ++ '_' :: natStr i) post hpost
    have hlpost : 0 < post.length := by
      rw [hdec] at hlt
      simp only [List.length_append, List.length_cons, hlen] at hlt
      omega
    rw [nameSuffix_eval _ _ hld]
    have hcond : 0 < (pre ++ '_' :: natStr i).length ∧
        (pre ++ '_' :: natStr i).length < ((pre ++ '_' :: natStr i) ++ '.' :: post).length - 1 := by
      constructor
      · simp
      · simp only [List.length_append, List.length_cons]
        omega
    rw [if_pos hcond, List.drop_left]
  · have hsfxnil : nameSuffix n = [] := by
      rcases h with h | h
      · exact nameSuffix_eval_none n h
      · rw [nameSuffix_eval n 0 h]; simp
    have hstem : nameStem n = n := by
      rcases h with h | h
      · exact nameStem_eval_none n h
      · rw [nameStem_eval n 0 h]; simp
    rw [hsfxnil, hstem, List.append_nil]
    have hld : lastDotIdx (n ++ '_' :: natStr i) = lastDotIdx n :=
      lastDotIdx_append_no_dot n _ (dot_not_mem_underscore_natStr i)
    rcases h with h | h
    · rw [nameSuffix_eval_none _ (hld.trans h)]
    · rw [nameSuffix_eval _ 0 (hld.trans h)]
      simp

/-! ### Sanitizer -/

theorem mem_pyStrip (c : Char) (l : Str) (h : c ∈ pyStrip l) : c ∈ l := by
  unfold pyStrip at h
  exact (List.dropWhile_suffix isPySpace).subset
    ((List.rdropWhile_prefix isPySpace (l.dropWhile isPySpace)).subset h)

theorem sanitize_chars (s : Str) : ∀ c ∈ sanitize_filename s, isInvalidChar c = false := by
  intro c hc
  simp only [sanitize_filename] at hc
  by_cases ht : pyStrip (s.map fun c => if isInvalidChar c then '_' else c) = []
  · rw [if_pos ht] at hc
    have : c = '_' := List.mem_singleton.mp hc
    rw [this]
    decide
  · rw [if_neg ht] at hc
    have hm := mem_pyStrip c _ hc
    obtain ⟨x, _, hx⟩ := List.mem_map.mp hm
    by_cases hinv : isInvalidChar x
    · rw [if_pos hinv] at hx
      rw [← hx]
      decide
    · rw [if_neg hinv] at hx
      rw [← hx]
      exact Bool.not_eq_true _ ▸ eq_false_of_ne_true hinv

theorem dropWhile_head_false (p : Char → Bool) (l : Str) (c : Char) (cs : Str)
    (h : l.dropWhile p = c :: cs) : p c = false := by
  induction l with
  | nil => cases h
  | cons a as ih =>
    rw [List.dropWhile_cons] at h
    by_cases hp : p a = true
    · simp only [hp, if_true] at h
      exact ih h
    · simp only [hp, if_false] at h
      have ha : a = c := by injection h
      rw [← ha]
      exact eq_false_of_ne_true hp

theorem dropWhile_rdropWhile_dropWhile (p : Char → Bool) (l : Str) :
    (List.rdropWhile p (l.dropWhile p)).dropWhile p = List.rdropWhile p (l.dropWhile p) := by
  rcases hr : List.rdropWhile p (l.dropWhile p) with _ | ⟨c, cs⟩
  · rfl
  · obtain ⟨t, ht⟩ := List.rdropWhile_prefix p (l.dropWhile p)
    rw [hr] at ht
    have hfirst : l.dropWhile p = c :: (cs ++ t) := by
      rw [← ht]
      rfl
    have hc := dropWhile_head_false p l c _ hfirst
    rw [List.dropWhile_cons]
    simp [hc]

theorem pyStrip_idem (l : Str) : pyStrip (pyStrip l) = pyStrip l := by
  unfold pyStrip
  rw [dropWhile_rdropWhile_dropWhile]
  exact List.rdropWhile_idempotent _ _

theorem sanitize_idem (s : Str) :
    sanitize_filename (sanitize_filename s) = sanitize_filename s := by
  have hchars := sanitize_chars s
  have hmap : (sanitize_filename s).map (fun c => if isInvalidChar c then '_' else c) =
      sanitize_filename s := by
    have hcg : ∀ c ∈ sanitize_filename s, (if isInvalidChar c then '_' else c) = id c := by
      intro c hc
      rw [hchars c hc]
      simp
    rw [List.map_congr_left hcg, List.map_id]
  have hstrip : pyStrip (sanitize_filename s) = pyStrip (sanitize_filename s) := rfl
  have hkey : pyStrip (sanitize_filename s) = sanitize_filename s := by
    simp only [sanitize_filename]
    by_cases ht : pyStrip (s.map fun c => if isInvalidChar c then '_' else c) = []
    · rw [if_pos ht]
      decide
    · rw [if_neg ht]
      exact pyStrip_idem _
  have hne : sanitize_filename s ≠ [] := by
    simp only [sanitize_filename]
    by_cases ht : pyStrip (s.map fun c => if isInvalidChar c then '_' else c) = []
    · rw [if_pos ht]
      decide
    · rw [if_neg ht]
      exact ht
  conv_lhs => rw [sanitize_filename]
  rw [hmap, hkey, if_neg hne]

/-! ### Claim C9 -/

/-- C9: for every input string, `sanitize_filename` produces only legal
filesystem characters (everything matched by the invalid-character class has
been replaced), and it is idempotent. -/
theorem claim9_sanitize (s : Str) :
    (∀ c ∈ sanitize_filename s, isInvalidChar c = false) ∧
    sanitize_filename (sanitize_filename s) = sanitize_filename s :=
  ⟨sanitize_chars s, sanitize_idem s⟩

/-- Witness for C9 at the concrete input `a?b` (sanitized to `a_b`). -/
theorem claim9_sanitize_witness :
    isInvalidChar '_' = false ∧
    sanitize_filename (sanitize_filename "a?b".data) = sanitize_filename "a?b".data :=
  ⟨(claim9_sanitize "a?b".data).1 '_' (by decide), (claim9_sanitize "a?b".data).2⟩

/-! ### Claim C10 -/

/-- C10 counterexample: for the candidate `a.` (whose `pathlib` suffix is
empty because its only dot is trailing) colliding with an existing `a.`, the
resolver returns `a._1`, whose suffix is `._1` — the extension is *not*
preserved, so the claim as stated fails. -/
theorem claim10_counterexample :
    unique_target [pDot] pDot ≠ pDot ∧
    (unique_target [pDot] pDot).dir = pDot.dir ∧
    PathT.suffix (unique_target [pDot] pDot) ≠ PathT.suffix pDot := by
  refine ⟨by decide, by decide, by decide⟩

/-- C10 (amended): the resolver preserves the parent directory, never returns
an existing path, returns the candidate unchanged when it does not exist, and
otherwise appends `_i` to the stem for the smallest free positive `i`; the
suffix is preserved provided the candidate's suffix is nonempty or its name
has no dot at a positive index (the trailing-dot corner case is the one
exception, per the counterexample). -/
theorem claim10_unique_target (fs : List PathT) (p : PathT) :
    (unique_target fs p).dir = p.dir ∧
    unique_target fs p ∉ fs ∧
    (p ∉ fs → unique_target fs p = p) ∧
    (p ∈ fs → ∃ i, 1 ≤ i ∧
      unique_target fs p = mkCand p.dir (nameStem p.name) (nameSuffix p.name) i ∧
      (∀ j, 1 ≤ j → j < i → mkCand p.dir (nameStem p.name) (nameSuffix p.name) j ∈ fs)) ∧
    ((PathT.suffix p ≠ [] ∨ (lastDotIdx p.name = none ∨ lastDotIdx p.name = some 0)) →
      PathT.suffix (unique_target fs p) = PathT.suffix p) := by
  refine ⟨unique_target_dir fs p, unique_target_not_mem fs p, ?_, ?_, ?_⟩
  · intro hp
    unfold unique_target
    rw [if_neg hp]
  · intro hp
    obtain ⟨k, hk, hfree⟩ := exists_free_cand fs p.dir (nameStem p.name) (nameSuffix p.name) 1
    obtain ⟨i, hi1, hi2, _, hi4⟩ := uniqueLoop_spec fs p.dir (nameStem p.name)
      (nameSuffix p.name) (fs.length + 1) 1 ⟨k, by omega, hfree⟩
    refine ⟨i, hi1, ?_, hi4⟩
    unfold unique_target
    rw [if_pos hp, hi2]
  · intro hcond
    by_cases hp : p ∈ fs
    · obtain ⟨k, hk, hfree⟩ := exists_free_cand fs p.dir (nameStem p.name) (nameSuffix p.name) 1
      obtain ⟨i, _, hi2, _, _⟩ := uniqueLoop_spec fs p.dir (nameStem p.name)
        (nameSuffix p.name) (fs.length + 1) 1 ⟨k, by omega, hfree⟩
      unfold unique_target
      rw [if_pos hp, hi2]
      show nameSuffix (nameStem p.name ++ '_' :: (natStr i ++ nameSuffix p.name)) = nameSuffix p.name
      exact nameSuffix_mkCand p.name i hcond
    · unfold unique_target
      rw [if_neg hp]

/-- Witness for C10 at concrete inputs: a colliding `a.jpg` resolves to
`a_1.jpg` with the same parent and suffix, and a non-colliding path is
returned unchanged. -/
theorem claim10_unique_target_witness :
    unique_target [pAJpg] pAJpg ∉ [pAJpg] ∧
    PathT.suffix (unique_target [pAJpg] pAJpg) = PathT.suffix pAJpg ∧
    unique_target [pAJpg] pBJpg = pBJpg := by
  refine ⟨(claim10_unique_target [pAJpg] pAJpg).2.1,
    (claim10_unique_target [pAJpg] pAJpg).2.2.2.2 (Or.inl (by decide)),
    (claim10_unique_target [pAJpg] pBJpg).2.2.1 (by decide)⟩

/-! ### Template expansion -/

theorem lookup_eq_none_of_not_known (ctx : Ctx) (n : Str) (h : isKnownName n = false) :
    ctx.lookup n = none := by
  simp only [isKnownName, Bool.or_eq_false_iff, beq_eq_false_iff_ne, ne_eq] at h
  obtain ⟨⟨⟨⟨⟨⟨h1, h2⟩, h3⟩, h4⟩, h5⟩, h6⟩, h7⟩ := h
  simp only [Ctx.lookup, if_neg h1, if_neg h2, if_neg h3, if_neg h4, if_neg h5,
    if_neg h6, if_neg h7]

theorem renderToks_error_of_unknown (ctx : Ctx) (toks : List Tok)
    (h : ∃ n sp, Tok.field n sp ∈ toks ∧ isKnownName n = false) :
    ∃ e, renderToks ctx toks = .error e := by
  induction toks with
  | nil =>
    obtain ⟨n, sp, hmem, _⟩ := h
    cases hmem
  | cons t ts ih =>
    obtain ⟨n, sp, hmem, hunk⟩ := h
    rcases List.mem_cons.mp hmem with heq | hmem2
    · rw [← heq]
      simp only [renderToks, lookup_eq_none_of_not_known ctx n hunk]
      exact ⟨.keyError n, rfl⟩
    · cases t with
      | lit c =>
        obtain ⟨e, he⟩ := ih ⟨n, sp, hmem2, hunk⟩
        simp only [renderToks, he]
        exact ⟨e, rfl⟩
      | field m sq =>
        cases hl : ctx.lookup m with
        | none =>
          refine ⟨.keyError m, ?_⟩
          simp only [renderToks, hl]
        | some v =>
          cases hv : formatValue v sq with
          | error e =>
            refine ⟨e, ?_⟩
            simp only [renderToks, hl, hv]
          | ok s =>
            obtain ⟨e, he⟩ := ih ⟨n, sp, hmem2, hunk⟩
            refine ⟨e, ?_⟩
            simp only [renderToks, hl, hv, he, Except.map]

theorem except_map_ok_iff (f : Str → Str) (e : Except FmtErr Str) :
    (∃ s, e.map f = .ok s) ↔ (∃ s, e = .ok s) := by
  cases e <;> simp [Except.map]

theorem lookup_same_kind (ctx ctx' : Ctx) (m : Str) :
    (ctx.lookup m = none ∧ ctx'.lookup m = none) ∨
    (∃ a b, ctx.lookup m = some (.vInt a) ∧ ctx'.lookup m = some (.vInt b)) ∨
    (∃ a b, ctx.lookup m = some (.vStr a) ∧ ctx'.lookup m = some (.vStr b)) ∨
    (∃ a b, ctx.lookup m = some (.vDate a) ∧ ctx'.lookup m = some (.vDate b)) := by
  unfold Ctx.lookup
  by_cases h1 : m = "counter".data
  · simp only [if_pos h1]
    exact Or.inr (Or.inl ⟨_, _, rfl, rfl⟩)
  by_cases h2 : m = "orig".data
  · simp only [if_neg h1, if_pos h2]
    exact Or.inr (Or.inr (Or.inl ⟨_, _, rfl, rfl⟩))
  by_cases h3 : m = "ext".data
  · simp only [if_neg h1, if_neg h2, if_pos h3]
    exact Or.inr (Or.inr (Or.inl ⟨_, _, rfl, rfl⟩))
  by_cases h4 : m = "date".data
  · simp only [if_neg h1, if_neg h2, if_neg h3, if_pos h4]
    exact Or.inr (Or.inr (Or.inr ⟨_, _, rfl, rfl⟩))
  by_cases h5 : m = "mtime".data
  · simp only [if_neg h1, if_neg h2, if_neg h3, if_neg h4, if_pos h5]
    exact Or.inr (Or.inr (Or.inr ⟨_, _, rfl, rfl⟩))
  by_cases h6 : m = "prefix".data
  · simp only [if_neg h1, if_neg h2, if_neg h3, if_neg h4, if_neg h5, if_pos h6]
    exact Or.inr (Or.inr (Or.inl ⟨_, _, rfl, rfl⟩))
  by_cases h7 : m = "suffix".data
  · simp only [if_neg h1, if_neg h2, if_neg h3, if_neg h4, if_neg h5, if_neg h6, if_pos h7]
    exact Or.inr (Or.inr (Or.inl ⟨_, _, rfl, rfl⟩))
  · refine Or.inl ⟨?_, ?_⟩ <;>
      rw [if_neg h1, if_neg h2, if_neg h3, if_neg h4, if_neg h5, if_neg h6, if_neg h7]

theorem formatInt_ok_iff (a b : Int) (sp : Str) :
    (∃ s, formatInt a sp = .ok s) ↔ (∃ s, formatInt b sp = .ok s) := by
  simp only [formatInt]
  by_cases h : sp = []
  · simp only [if_pos h]
    exact iff_of_true ⟨_, rfl⟩ ⟨_, rfl⟩
  · simp only [if_neg h]
    by_cases h2 : List.dropWhile Char.isDigit (if sp.head? = some '0' then sp.tail else sp) = [] ∨
        List.dropWhile Char.isDigit (if sp.head? = some '0' then sp.tail else sp) = ['d']
    · simp only [if_pos h2]
      exact iff_of_true ⟨_, rfl⟩ ⟨_, rfl⟩
    · simp only [if_neg h2]

theorem renderToks_ok_iff (ctx ctx' : Ctx) (toks : List Tok) :
    (∃ s, renderToks ctx toks = .ok s) ↔ (∃ s, renderToks ctx' toks = .ok s) := by
  induction toks with
  | nil => simp [renderToks]
  | cons t ts ih =>
    cases t with
    | lit c =>
      simp only [renderToks]
      rw [except_map_ok_iff, except_map_ok_iff]
      exact ih
    | field m sq =>
      rcases lookup_same_kind ctx ctx' m with ⟨hl, hl'⟩ | ⟨a, b, hl, hl'⟩ |
        ⟨a, b, hl, hl'⟩ | ⟨a, b, hl, hl'⟩
      · simp [renderToks, hl, hl']
      · rcases (formatInt_ok_iff a b sq) with ⟨hfwd, hbwd⟩
        cases hfa : formatInt a sq with
        | error e =>
          cases hfb : formatInt b sq with
          | error e2 => simp [renderToks, hl, hl', formatValue, hfa, hfb]
          | ok s2 => exact absurd (hbwd ⟨s2, hfb⟩) (by simp [hfa])
        | ok s1 =>
          cases hfb : formatInt b sq with
          | error e2 => exact absurd (hfwd ⟨s1, hfa⟩) (by simp [hfb])
          | ok s2 =>
            simp only [renderToks, hl, hl', formatValue, hfa, hfb]
            rw [except_map_ok_iff, except_map_ok_iff]
            exact ih
      · by_cases hsq : sq = []
        · simp only [renderToks, hl, hl', formatValue, if_pos hsq]
          rw [except_map_ok_iff, except_map_ok_iff]
          exact ih
        · simp [renderToks, hl, hl', formatValue, hsq]
      · by_cases hsq : sq = []
        · simp only [renderToks, hl, hl', formatValue, if_pos hsq]
          rw [except_map_ok_iff, except_map_ok_iff]
          exact ih
        · simp only [renderToks, hl, hl', formatValue, if_neg hsq]
          rw [except_map_ok_iff, except_map_ok_iff]
          exact ih

theorem format_map_ok_iff (ctx ctx' : Ctx) (pat : Str) :
    (∃ s, format_map ctx pat = .ok s) ↔ (∃ s, format_map ctx' pat = .ok s) := by
  unfold format_map
  cases parseFmt pat with
  | error e => simp
  | ok ts => exact renderToks_ok_iff ctx ctx' ts

theorem fmtOkB_true_iff (ctx : Ctx) (pat : Str) :
    fmtOkB pat = true ↔ (∃ s, format_map ctx pat = .ok s) := by
  unfold fmtOkB
  constructor
  · intro h
    rcases hp : format_map probeCtx pat with e | s
    · rw [hp] at h
      cases h
    · exact (format_map_ok_iff probeCtx ctx pat).mp ⟨s, hp⟩
  · intro h
    obtain ⟨s, hs⟩ := (format_map_ok_iff ctx probeCtx pat).mp h
    rw [hs]

theorem format_map_error_of_unknown (ctx : Ctx) (pat : Str) (toks : List Tok)
    (hp : parseFmt pat = .ok toks)
    (h : ∃ n sp, Tok.field n sp ∈ toks ∧ isKnownName n = false) :
    ∃ e, format_map ctx pat = .error e := by
  unfold format_map
  rw [hp]
  exact renderToks_error_of_unknown ctx toks h

/-! ### The planning/execution loop -/

theorem stepFile_error_spec (cfg : Config) (env : Env) (p : PathT) (st stA : LoopState)
    (h : stepFile cfg env p st = .error stA) :
    stA = st ∧ ∃ e, format_map (ctxOf cfg env st.counter p) (effPattern cfg) = .error e := by
  unfold stepFile at h
  split at h
  · rename_i e hf
    exact ⟨(Except.error.inj h).symm, e, hf⟩
  · cases h

theorem stepFile_ok_spec (cfg : Config) (env : Env) (p : PathT) (st st2 : LoopState)
    (h : stepFile cfg env p st = .ok st2) :
    ∃ base, format_map (ctxOf cfg env st.counter p) (effPattern cfg) = .ok base ∧
      st2 = { counter := st.counter + 1,
              fs := if (mkRec cfg env p st base).renamed = true then
                      (mkRec cfg env p st base).dst :: st.fs.erase p
                    else st.fs,
              ops := st.ops ++ [(p, (mkRec cfg env p st base).dst)],
              recs := st.recs ++ [mkRec cfg env p st base],
              reported := if cfg.verbose || !cfg.apply then
                            st.reported ++ [(p.name, (mkRec cfg env p st base).dst.name)]
                          else st.reported } := by
  unfold stepFile at h
  split at h
  · cases h
  · rename_i base hf
    exact ⟨base, hf, (Except.ok.inj h).symm⟩

theorem processFiles_nil (cfg : Config) (env : Env) (st : LoopState) :
    processFiles cfg env [] st =
      { aborted := false, ops := st.ops, recs := st.recs, fs := st.fs,
        mapWritten := if cfg.apply = true then some st.ops else none,
        reported := st.reported } := rfl

theorem processFiles_cons_ok (cfg : Config) (env : Env) (p : PathT) (rest : List PathT)
    (st st2 : LoopState) (hs : stepFile cfg env p st = .ok st2) :
    processFiles cfg env (p :: rest) st = processFiles cfg env rest st2 := by
  simp only [processFiles, hs]

theorem processFiles_cons_error (cfg : Config) (env : Env) (p : PathT) (rest : List PathT)
    (st stA : LoopState) (hs : stepFile cfg env p st = .error stA) :
    processFiles cfg env (p :: rest) st =
      { aborted := true, ops := stA.ops, recs := stA.recs, fs := stA.fs,
        mapWritten := none, reported := stA.reported } := by
  simp only [processFiles, hs]

theorem processFiles_aborted (cfg : Config) (env : Env) : ∀ (files : List PathT) (st : LoopState),
    (processFiles cfg env files st).aborted =
      (decide (files ≠ []) && !fmtOkB (effPattern cfg)) := by
  intro files
  induction files with
  | nil =>
    intro st
    simp [processFiles_nil]
  | cons p rest ih =>
    intro st
    cases hs : stepFile cfg env p st with
    | error stA =>
      rw [processFiles_cons_error cfg env p rest st stA hs]
      obtain ⟨_, e, hf⟩ := stepFile_error_spec cfg env p st stA hs
      have hok : fmtOkB (effPattern cfg) = false := by
        cases hok : fmtOkB (effPattern cfg)
        · rfl
        · obtain ⟨s, hsok⟩ :=
            (fmtOkB_true_iff (ctxOf cfg env st.counter p) (effPattern cfg)).mp hok
          rw [hsok] at hf
          cases hf
      simp [hok]
    | ok st2 =>
      rw [processFiles_cons_ok cfg env p rest st st2 hs, ih st2]
      obtain ⟨base, hf, _⟩ := stepFile_ok_spec cfg env p st st2 hs
      have hok : fmtOkB (effPattern cfg) = true :=
        (fmtOkB_true_iff (ctxOf cfg env st.counter p) (effPattern cfg)).mpr ⟨base, hf⟩
      simp [hok]

theorem processFiles_recs_from (cfg : Config) (env : Env) :
    ∀ (files : List PathT) (st : LoopState) (rec : FileRec),
      rec ∈ (processFiles cfg env files st).recs →
      rec ∈ st.recs ∨ ∃ p st2 base, p ∈ files ∧ rec = mkRec cfg env p st2 base := by
  intro files
  induction files with
  | nil =>
    intro st rec h
    rw [processFiles_nil] at h
    exact Or.inl h
  | cons p rest ih =>
    intro st rec h
    cases hs : stepFile cfg env p st with
    | error stA =>
      rw [processFiles_cons_error cfg env p rest st stA hs] at h
      obtain ⟨rfl, _⟩ := stepFile_error_spec cfg env p st stA hs
      exact Or.inl h
    | ok st2 =>
      rw [processFiles_cons_ok cfg env p rest st st2 hs] at h
      obtain ⟨base, hf, hst2⟩ := stepFile_ok_spec cfg env p st st2 hs
      rcases ih st2 rec h with hmem | ⟨q, stq, bq, hq1, hq2⟩
      · rw [hst2] at hmem
        simp only [List.mem_append, List.mem_singleton] at hmem
        rcases hmem with hmem | hmem
        · exact Or.inl hmem
        · exact Or.inr ⟨p, st, base, List.mem_cons_self p rest, hmem⟩
      · exact Or.inr ⟨q, stq, bq, List.mem_cons_of_mem p hq1, hq2⟩

theorem processFiles_counterVals (cfg : Config) (env : Env) :
    ∀ (files : List PathT) (st : LoopState) (c0 : Int),
      st.counter = c0 + st.recs.length →
      st.recs.map FileRec.counterVal = (List.range st.recs.length).map (fun k : Nat => c0 + (k : Int)) →
      (processFiles cfg env files st).recs.map FileRec.counterVal =
        (List.range (processFiles cfg env files st).recs.length).map (fun k : Nat => c0 + (k : Int)) := by
  intro files
  induction files with
  | nil =>
    intro st c0 hc hmap
    rw [processFiles_nil]
    exact hmap
  | cons p rest ih =>
    intro st c0 hc hmap
    cases hs : stepFile cfg env p st with
    | error stA =>
      obtain ⟨hA, _⟩ := stepFile_error_spec cfg env p st stA hs
      rw [processFiles_cons_error cfg env p rest st stA hs, hA]
      exact hmap
    | ok st2 =>
      obtain ⟨base, hf, hst2⟩ := stepFile_ok_spec cfg env p st st2 hs
      rw [processFiles_cons_ok cfg env p rest st st2 hs]
      refine ih st2 c0 ?_ ?_
      · rw [hst2]
        show st.counter + 1 = c0 + ((st.recs ++ [mkRec cfg env p st base]).length : Nat)
        rw [hc]
        simp only [List.length_append, List.length_cons, List.length_nil]
        push_cast
        ring
      · rw [hst2]
        show (st.recs ++ [mkRec cfg env p st base]).map FileRec.counterVal =
          (List.range (st.recs ++ [mkRec cfg env p st base]).length).map (fun k : Nat => c0 + (k : Int))
        rw [List.map_append, hmap]
        simp only [List.length_append, List.length_cons, List.length_nil, List.map_cons,
          List.map_nil]
        rw [List.range_succ, List.map_append]
        simp only [List.map_cons, List.map_nil]
        have hlast : (mkRec cfg env p st base).counterVal = st.counter := rfl
        rw [hlast, hc]

theorem processFiles_preview (cfg : Config) (env : Env) (hprev : cfg.apply = false) :
    ∀ (files : List PathT) (st : LoopState),
      st.reported = st.ops.map (fun q => (q.1.name, q.2.name)) →
      (processFiles cfg env files st).fs = st.fs ∧
      (processFiles cfg env files st).mapWritten = none ∧
      (processFiles cfg env files st).reported =
        (processFiles cfg env files st).ops.map (fun q => (q.1.name, q.2.name)) := by
  intro files
  induction files with
  | nil =>
    intro st hrep
    rw [processFiles_nil]
    refine ⟨rfl, ?_, hrep⟩
    simp [hprev]
  | cons p rest ih =>
    intro st hrep
    cases hs : stepFile cfg env p st with
    | error stA =>
      obtain ⟨hA, _⟩ := stepFile_error_spec cfg env p st stA hs
      rw [processFiles_cons_error cfg env p rest st stA hs, hA]
      exact ⟨rfl, rfl, hrep⟩
    | ok st2 =>
      obtain ⟨base, hf, hst2⟩ := stepFile_ok_spec cfg env p st st2 hs
      have hren : (mkRec cfg env p st base).renamed = false := by
        show (cfg.apply && !(env.renameFail p (mkRec cfg env p st base).dst) &&
          decide (p ∈ st.fs)) = false
        rw [hprev]
        simp
      have hfs2 : st2.fs = st.fs := by
        rw [hst2]
        simp [hren]
      have hrep2 : st2.reported = st2.ops.map (fun q => (q.1.name, q.2.name)) := by
        rw [hst2]
        simp [hprev, hrep]
      rw [processFiles_cons_ok cfg env p rest st st2 hs]
      obtain ⟨h1, h2, h3⟩ := ih st2 hrep2
      exact ⟨hfs2 ▸ h1, h2, h3⟩

theorem processFiles_complete (cfg : Config) (env : Env) :
    ∀ (files : List PathT) (st : LoopState),
      (processFiles cfg env files st).aborted = false →
      (processFiles cfg env files st).mapWritten =
        (if cfg.apply = true then some (processFiles cfg env files st).ops else none) := by
  intro files
  induction files with
  | nil =>
    intro st _
    rw [processFiles_nil]
  | cons p rest ih =>
    intro st hab
    cases hs : stepFile cfg env p st with
    | error stA =>
      rw [processFiles_cons_error cfg env p rest st stA hs] at hab
      cases hab
    | ok st2 =>
      rw [processFiles_cons_ok cfg env p rest st st2 hs] at hab ⊢
      exact ih st2 hab

theorem processFiles_ops_recs (cfg : Config) (env : Env) :
    ∀ (files : List PathT) (st : LoopState),
      st.ops = st.recs.map (fun rec => (rec.src, rec.dst)) →
      (processFiles cfg env files st).ops =
        (processFiles cfg env files st).recs.map (fun rec => (rec.src, rec.dst)) := by
  intro files
  induction files with
  | nil =>
    intro st hor
    rw [processFiles_nil]
    exact hor
  | cons p rest ih =>
    intro st hor
    cases hs : stepFile cfg env p st with
    | error stA =>
      obtain ⟨hA, _⟩ := stepFile_error_spec cfg env p st stA hs
      rw [processFiles_cons_error cfg env p rest st stA hs, hA]
      exact hor
    | ok st2 =>
      obtain ⟨base, hf, hst2⟩ := stepFile_ok_spec cfg env p st st2 hs
      rw [processFiles_cons_ok cfg env p rest st st2 hs]
      refine ih st2 ?_
      rw [hst2]
      show st.ops ++ [(p, (mkRec cfg env p st base).dst)] =
        (st.recs ++ [mkRec cfg env p st base]).map (fun rec => (rec.src, rec.dst))
      rw [List.map_append, ← hor]
      rfl

theorem processFiles_dst_nodup (cfg : Config) (env : Env) (ha : cfg.apply = true)
    (hrf : ∀ p t, env.renameFail p t = false) :
    ∀ (files : List PathT) (st : LoopState),
      files.Nodup →
      (∀ f ∈ files, f ∈ st.fs) →
      (∀ f ∈ files, f ∉ st.ops.map Prod.snd) →
      (∀ d ∈ st.ops.map Prod.snd, d ∈ st.fs) →
      (st.ops.map Prod.snd).Nodup →
      ((processFiles cfg env files st).ops.map Prod.snd).Nodup := by
  intro files
  induction files with
  | nil =>
    intro st _ _ _ _ h5
    rw [processFiles_nil]
    exact h5
  | cons p rest ih =>
    intro st hnd hsub hnop hdst h5
    cases hs : stepFile cfg env p st with
    | error stA =>
      obtain ⟨hA, _⟩ := stepFile_error_spec cfg env p st stA hs
      rw [processFiles_cons_error cfg env p rest st stA hs, hA]
      exact h5
    | ok st2 =>
      obtain ⟨base, hf, hst2⟩ := stepFile_ok_spec cfg env p st st2 hs
      rw [processFiles_cons_ok cfg env p rest st st2 hs]
      have htne : (mkRec cfg env p st base).dst ∉ st.fs := by
        show unique_target st.fs ⟨p.dir, newNameOf cfg p base⟩ ∉ st.fs
        exact unique_target_not_mem _ _
      have hpmem : p ∈ st.fs := hsub p (List.mem_cons_self p rest)
      have hren : (mkRec cfg env p st base).renamed = true := by
        show (cfg.apply && !(env.renameFail p (mkRec cfg env p st base).dst) &&
          decide (p ∈ st.fs)) = true
        rw [ha, hrf]
        simp [hpmem]
      have hfs2 : st2.fs = (mkRec cfg env p st base).dst :: st.fs.erase p := by
        rw [hst2]
        simp [hren]
      have hops2 : st2.ops.map Prod.snd =
          st.ops.map Prod.snd ++ [(mkRec cfg env p st base).dst] := by
        rw [hst2]
        simp
      have hndr : rest.Nodup := (List.nodup_cons.mp hnd).2
      have hpnr : p ∉ rest := (List.nodup_cons.mp hnd).1
      refine ih st2 hndr ?_ ?_ ?_ ?_
      · intro f hf2
        rw [hfs2]
        have hfp : f ≠ p := fun he => hpnr (he ▸ hf2)
        exact List.mem_cons_of_mem _ ((List.mem_erase_of_ne hfp).mpr
          (hsub f (List.mem_cons_of_mem p hf2)))
      · intro f hf2
        rw [hops2]
        simp only [List.mem_append, List.mem_singleton, not_or]
        refine ⟨hnop f (List.mem_cons_of_mem p hf2), ?_⟩
        intro he
        exact htne (he ▸ hsub f (List.mem_cons_of_mem p hf2))
      · intro dp hdp
        rw [hops2] at hdp
        rw [hfs2]
        simp only [List.mem_append, List.mem_singleton] at hdp
        rcases hdp with hdp | hdp
        · have hdneq : dp ≠ p := by
            intro he
            exact hnop p (List.mem_cons_self p rest) (he ▸ hdp)
          exact List.mem_cons_of_mem _ ((List.mem_erase_of_ne hdneq).mpr (hdst dp hdp))
        · rw [hdp]
          exact List.mem_cons_self _ _
      · rw [hops2]
        rw [List.nodup_append]
        refine ⟨h5, List.nodup_singleton _, ?_⟩
        intro x hx
        simp only [List.mem_singleton]
        intro he
        exact htne (he ▸ hdst x hx)

/-! ### The undo engine -/

theorem undoGo_split (m : List (PathT × PathT)) : ∀ (acc : UndoResult),
    (undoGo m acc).recs = acc.recs ++ (undoRun m acc.fs).recs ∧
    (undoGo m acc).fs = (undoRun m acc.fs).fs ∧
    (undoGo m acc).reversedOps = acc.reversedOps ++ (undoRun m acc.fs).reversedOps := by
  induction m with
  | nil =>
    intro acc
    refine ⟨?_, rfl, ?_⟩ <;> simp [undoGo, undoRun]
  | cons q rest ih =>
    obtain ⟨s, d⟩ := q
    intro acc
    by_cases hc : d ∈ acc.fs ∧ s ∉ acc.fs
    · have hL : undoGo ((s, d) :: rest) acc =
          undoGo rest { recs := acc.recs ++ [⟨s, d, true⟩], fs := s :: acc.fs.erase d,
                        reversedOps := acc.reversedOps ++ [(d, s)] } := by
        simp only [undoGo, if_pos hc]
      have hR : undoRun ((s, d) :: rest) acc.fs =
          undoGo rest { recs := [⟨s, d, true⟩], fs := s :: acc.fs.erase d,
                        reversedOps := [(d, s)] } := by
        unfold undoRun
        simp only [undoGo]
        rw [if_pos]
        · simp
        · exact hc
      obtain ⟨i1, i2, i3⟩ := ih { recs := acc.recs ++ [⟨s, d, true⟩], fs := s :: acc.fs.erase d,
                                  reversedOps := acc.reversedOps ++ [(d, s)] }
      obtain ⟨j1, j2, j3⟩ := ih { recs := [⟨s, d, true⟩], fs := s :: acc.fs.erase d,
                                  reversedOps := [(d, s)] }
      rw [hL, hR]
      refine ⟨?_, ?_, ?_⟩
      · rw [i1, j1]
        simp
      · rw [i2, j2]
      · rw [i3, j3]
        simp
    · have hL : undoGo ((s, d) :: rest) acc =
          undoGo rest { recs := acc.recs ++ [⟨s, d, false⟩], fs := acc.fs,
                        reversedOps := acc.reversedOps } := by
        simp only [undoGo, if_neg hc]
      have hR : undoRun ((s, d) :: rest) acc.fs =
          undoGo rest { recs := [⟨s, d, false⟩], fs := acc.fs, reversedOps := [] } := by
        unfold undoRun
        simp only [undoGo]
        rw [if_neg]
        · simp
        · exact hc
      obtain ⟨i1, i2, i3⟩ := ih { recs := acc.recs ++ [⟨s, d, false⟩], fs := acc.fs,
                                  reversedOps := acc.reversedOps }
      obtain ⟨j1, j2, j3⟩ := ih { recs := [⟨s, d, false⟩], fs := acc.fs, reversedOps := [] }
      rw [hL, hR]
      refine ⟨?_, ?_, ?_⟩
      · rw [i1, j1]
        simp
      · rw [i2, j2]
      · rw [i3, j3]
        simp

theorem undoGo_append (xs ys : List (PathT × PathT)) : ∀ (acc : UndoResult),
    undoGo (xs ++ ys) acc = undoGo ys (undoGo xs acc) := by
  induction xs with
  | nil => intro acc; rfl
  | cons q rest ih =>
    obtain ⟨s, d⟩ := q
    intro acc
    by_cases hc : d ∈ acc.fs ∧ s ∉ acc.fs
    · simp only [List.cons_append, undoGo, if_pos hc]
      exact ih _
    · simp only [List.cons_append, undoGo, if_neg hc]
      exact ih _

theorem undoRun_cons_pos (s d : PathT) (rest : List (PathT × PathT)) (fs : List PathT)
    (hc : d ∈ fs ∧ s ∉ fs) :
    (undoRun ((s, d) :: rest) fs).recs =
      ⟨s, d, true⟩ :: (undoRun rest (s :: fs.erase d)).recs ∧
    (undoRun ((s, d) :: rest) fs).fs = (undoRun rest (s :: fs.erase d)).fs ∧
    (undoRun ((s, d) :: rest) fs).reversedOps =
      (d, s) :: (undoRun rest (s :: fs.erase d)).reversedOps := by
  have hR : undoRun ((s, d) :: rest) fs =
      undoGo rest { recs := [⟨s, d, true⟩], fs := s :: fs.erase d,
                    reversedOps := [(d, s)] } := by
    unfold undoRun
    simp only [undoGo]
    rw [if_pos]
    · simp
    · exact hc
  obtain ⟨j1, j2, j3⟩ := undoGo_split rest { recs := [⟨s, d, true⟩], fs := s :: fs.erase d,
                                             reversedOps := [(d, s)] }
  rw [hR]
  exact ⟨by rw [j1]; simp, by rw [j2], by rw [j3]; simp⟩

theorem undoRun_cons_neg (s d : PathT) (rest : List (PathT × PathT)) (fs : List PathT)
    (hc : ¬(d ∈ fs ∧ s ∉ fs)) :
    (undoRun ((s, d) :: rest) fs).recs = ⟨s, d, false⟩ :: (undoRun rest fs).recs ∧
    (undoRun ((s, d) :: rest) fs).fs = (undoRun rest fs).fs ∧
    (undoRun ((s, d) :: rest) fs).reversedOps = (undoRun rest fs).reversedOps := by
  have hR : undoRun ((s, d) :: rest) fs =
      undoGo rest { recs := [⟨s, d, false⟩], fs := fs, reversedOps := [] } := by
    unfold undoRun
    simp only [undoGo]
    rw [if_neg]
    · simp
    · exact hc
  obtain ⟨j1, j2, j3⟩ := undoGo_split rest { recs := [⟨s, d, false⟩], fs := fs,
                                             reversedOps := [] }
  rw [hR]
  exact ⟨by rw [j1]; simp, by rw [j2], by rw [j3]; simp⟩

theorem undoRun_recs_length (m : List (PathT × PathT)) : ∀ (fs : List PathT),
    (undoRun m fs).recs.length = m.length := by
  induction m with
  | nil => intro fs; rfl
  | cons q rest ih =>
    obtain ⟨s, d⟩ := q
    intro fs
    by_cases hc : d ∈ fs ∧ s ∉ fs
    · rw [(undoRun_cons_pos s d rest fs hc).1]
      simp [ih]
    · rw [(undoRun_cons_neg s d rest fs hc).1]
      simp [ih]

theorem undoRun_untouched (m : List (PathT × PathT)) : ∀ (fs : List PathT) (x : PathT),
    x ∉ pathsOf m → (x ∈ (undoRun m fs).fs ↔ x ∈ fs) := by
  induction m with
  | nil => intro fs x _; exact Iff.rfl
  | cons q rest ih =>
    obtain ⟨s, d⟩ := q
    intro fs x hx
    have hflat : pathsOf ((s, d) :: rest) = s :: d :: pathsOf rest := by
      simp [pathsOf]
    rw [hflat] at hx
    simp only [List.mem_cons, not_or] at hx
    obtain ⟨hxs, hxd, hxr⟩ := hx
    by_cases hc : d ∈ fs ∧ s ∉ fs
    · rw [(undoRun_cons_pos s d rest fs hc).2.1]
      rw [ih (s :: fs.erase d) x hxr]
      simp only [List.mem_cons]
      constructor
      · rintro (he | he)
        · exact absurd he hxs
        · exact (List.mem_erase_of_ne hxd).mp he
      · intro he
        exact Or.inr ((List.mem_erase_of_ne hxd).mpr he)
    · rw [(undoRun_cons_neg s d rest fs hc).2.1]
      exact ih fs x hxr

theorem undoRun_double (m : List (PathT × PathT)) : ∀ (fs : List PathT),
    (pathsOf m).Nodup →
    ∀ rec ∈ (undoRun m (undoRun m fs).fs).recs, rec.reversed = false := by
  induction m with
  | nil =>
    intro fs _ rec h
    cases h
  | cons q rest ih =>
    obtain ⟨s, d⟩ := q
    intro fs hnd rec hrec
    have hflat : pathsOf ((s, d) :: rest) = s :: d :: pathsOf rest := by
      simp [pathsOf]
    rw [hflat, List.nodup_cons, List.nodup_cons] at hnd
    obtain ⟨hs_not0, hd_not, hnd'⟩ := hnd
    have hs_not : s ∉ pathsOf rest := fun h => hs_not0 (List.mem_cons_of_mem d h)
    by_cases hc : d ∈ fs ∧ s ∉ fs
    · obtain ⟨h1, h2, _⟩ := undoRun_cons_pos s d rest fs hc
      rw [h2] at hrec
      have hsF : s ∈ (undoRun rest (s :: fs.erase d)).fs :=
        (undoRun_untouched rest (s :: fs.erase d) s hs_not).mpr (List.mem_cons_self s _)
      have hc2 : ¬(d ∈ (undoRun rest (s :: fs.erase d)).fs ∧
          s ∉ (undoRun rest (s :: fs.erase d)).fs) := fun h => h.2 hsF
      obtain ⟨g1, _, _⟩ := undoRun_cons_neg s d rest (undoRun rest (s :: fs.erase d)).fs hc2
      rw [g1] at hrec
      rcases List.mem_cons.mp hrec with he | hrec2
      · rw [he]
      · exact ih (s :: fs.erase d) hnd' rec hrec2
    · obtain ⟨h1, h2, _⟩ := undoRun_cons_neg s d rest fs hc
      rw [h2] at hrec
      have hdF : d ∈ (undoRun rest fs).fs ↔ d ∈ fs := undoRun_untouched rest fs d hd_not
      have hsF : s ∈ (undoRun rest fs).fs ↔ s ∈ fs := undoRun_untouched rest fs s hs_not
      have hc2 : ¬(d ∈ (undoRun rest fs).fs ∧ s ∉ (undoRun rest fs).fs) := by
        intro hcc
        exact hc ⟨hdF.mp hcc.1, fun hss => hcc.2 (hsF.mpr hss)⟩
      obtain ⟨g1, _, _⟩ := undoRun_cons_neg s d rest (undoRun rest fs).fs hc2
      rw [g1] at hrec
      rcases List.mem_cons.mp hrec with he | hrec2
      · rw [he]
      · exact ih fs hnd' rec hrec2

/-! ### Claim C1 -/

/-- C1 counterexample: in a preview run over `a.jpg` and `b.jpg` with the
constant pattern `pic`, both files are assigned the same destination
`pic.jpg` — the resolver consults only on-disk existence, not destinations
already assigned earlier in the same plan, so the claim as stated fails. -/
theorem claim1_counterexample :
    (mainRun cfgPic envBase [pAJpg, pBJpg] [pAJpg, pBJpg]).ops.map Prod.snd =
      [⟨[], "pic.jpg".data⟩, ⟨[], "pic.jpg".data⟩] ∧
    ¬ ((mainRun cfgPic envBase [pAJpg, pBJpg] [pAJpg, pBJpg]).ops.map Prod.snd).Nodup := by
  constructor
  · decide
  · decide

/-- C1 (amended): in apply mode, when no rename fails, the sources are
distinct and all exist, the destinations assigned in one batch are pairwise
distinct — because each successful rename puts its destination on disk before
the next file's target is resolved.  (In preview mode, or when renames fail,
duplicates can occur, per the counterexample.) -/
theorem claim1_dst_nodup (cfg : Config) (env : Env) (files fs₀ : List PathT)
    (ha : cfg.apply = true) (hrf : ∀ p t, env.renameFail p t = false)
    (hnd : files.Nodup) (hsub : ∀ f ∈ files, f ∈ fs₀) :
    ((mainRun cfg env files fs₀).ops.map Prod.snd).Nodup := by
  unfold mainRun
  by_cases hf : files = []
  · rw [if_pos hf]
    simp
  · rw [if_neg hf]
    refine processFiles_dst_nodup cfg env ha hrf files
      { counter := cfg.start, fs := fs₀, ops := [], recs := [], reported := [] }
      hnd hsub ?_ ?_ ?_
    · intro f _
      simp
    · intro dp hdp
      simp at hdp
    · simp

/-- Witness for the amended C1: a one-file apply run with no failures. -/
theorem claim1_dst_nodup_witness :
    ((mainRun cfgX envBase [pAJpg] [pAJpg]).ops.map Prod.snd).Nodup :=
  claim1_dst_nodup cfgX envBase [pAJpg] [pAJpg] rfl (fun _ _ => rfl) (by decide) (by decide)

/-! ### Claim C2 -/

/-- C2 counterexample: in an apply run where the rename of `a.jpg` to `x.jpg`
raises, the operation is still present in the persisted mapping — the ops
list is appended before the rename is attempted, so the claim as stated
fails. -/
theorem claim2_counterexample :
    (mainRun cfgX envFailAll [pAJpg] [pAJpg]).mapWritten =
      some [(pAJpg, ⟨[], "x.jpg".data⟩)] ∧
    (mainRun cfgX envFailAll [pAJpg] [pAJpg]).recs.map FileRec.renamed = [false] ∧
    (mainRun cfgX envFailAll [pAJpg] [pAJpg]).fs = [pAJpg] := by
  refine ⟨by decide, by decide, by decide⟩

/-- C2 (amended): in apply mode, for every non-empty batch that does not
abort, the persisted mapping contains exactly the *planned* operations — one
per processed file, regardless of whether that file's rename succeeded. -/
theorem claim2_mapWritten (cfg : Config) (env : Env) (files fs₀ : List PathT)
    (ha : cfg.apply = true) (hne : files ≠ [])
    (hab : (mainRun cfg env files fs₀).aborted = false) :
    (mainRun cfg env files fs₀).mapWritten = some ((mainRun cfg env files fs₀).ops) ∧
    (mainRun cfg env files fs₀).ops =
      (mainRun cfg env files fs₀).recs.map (fun rec => (rec.src, rec.dst)) := by
  unfold mainRun at hab ⊢
  rw [if_neg hne] at hab ⊢
  constructor
  · rw [processFiles_complete cfg env files _ hab, if_pos ha]
  · exact processFiles_ops_recs cfg env files _ rfl

/-- Witness for the amended C2: a successful one-file apply run. -/
theorem claim2_mapWritten_witness :
    (mainRun cfgX envBase [pAJpg] [pAJpg]).mapWritten =
      some ((mainRun cfgX envBase [pAJpg] [pAJpg]).ops) ∧
    (mainRun cfgX envBase [pAJpg] [pAJpg]).ops =
      (mainRun cfgX envBase [pAJpg] [pAJpg]).recs.map (fun rec => (rec.src, rec.dst)) :=
  claim2_mapWritten cfgX envBase [pAJpg] [pAJpg] rfl (by decide) (by decide)

/-! ### Claim C3 -/

/-- C3: when the (rewritten) pattern parses but references a placeholder name
outside the context keys, any run over a non-empty file sequence aborts at
the very first file: no operation is produced, no record is traced, the
filesystem is untouched, and no mapping file is written. -/
theorem claim3_unknown_placeholder (cfg : Config) (env : Env) (files fs₀ : List PathT)
    (toks : List Tok) (hne : files ≠ [])
    (hp : parseFmt (effPattern cfg) = .ok toks)
    (hunk : ∃ n sp, Tok.field n sp ∈ toks ∧ isKnownName n = false) :
    (mainRun cfg env files fs₀).aborted = true ∧
    (mainRun cfg env files fs₀).ops = [] ∧
    (mainRun cfg env files fs₀).recs = [] ∧
    (mainRun cfg env files fs₀).fs = fs₀ ∧
    (mainRun cfg env files fs₀).mapWritten = none := by
  obtain ⟨p, rest, rfl⟩ := List.exists_cons_of_ne_nil hne
  unfold mainRun
  rw [if_neg hne]
  obtain ⟨e, he⟩ := format_map_error_of_unknown (ctxOf cfg env cfg.start p)
    (effPattern cfg) toks hp hunk
  have hstep : stepFile cfg env p
      { counter := cfg.start, fs := fs₀, ops := [], recs := [], reported := [] } =
      .error { counter := cfg.start, fs := fs₀, ops := [], recs := [], reported := [] } := by
    simp only [stepFile, he]
  rw [processFiles_cons_error cfg env p rest _ _ hstep]
  exact ⟨rfl, rfl, rfl, rfl, rfl⟩

/-- Witness for C3: the pattern `\x7bunknown\x7d_\x7bcounter\x7d` aborts a
one-file run before producing anything. -/
theorem claim3_unknown_placeholder_witness :
    (mainRun cfgUnknown envBase [pAJpg] [pAJpg]).aborted = true ∧
    (mainRun cfgUnknown envBase [pAJpg] [pAJpg]).ops = [] ∧
    (mainRun cfgUnknown envBase [pAJpg] [pAJpg]).recs = [] ∧
    (mainRun cfgUnknown envBase [pAJpg] [pAJpg]).fs = [pAJpg] ∧
    (mainRun cfgUnknown envBase [pAJpg] [pAJpg]).mapWritten = none :=
  claim3_unknown_placeholder cfgUnknown envBase [pAJpg] [pAJpg]
    [Tok.field "unknown".data [], Tok.lit '_', Tok.field "counter".data []]
    (by decide) (by rfl) ⟨"unknown".data, [], by decide, by decide⟩

/-! ### Claim C4 -/

/-- C4: in preview mode, for every configuration, oracle environment, file
sequence and filesystem, the run mutates nothing (the filesystem is returned
unchanged), writes no mapping file, and reports exactly the planned
operations (whose total count is the length of that report). -/
theorem claim4_preview (cfg : Config) (env : Env) (files fs₀ : List PathT)
    (hprev : cfg.apply = false) :
    (mainRun cfg env files fs₀).fs = fs₀ ∧
    (mainRun cfg env files fs₀).mapWritten = none ∧
    (mainRun cfg env files fs₀).reported =
      (mainRun cfg env files fs₀).ops.map (fun q => (q.1.name, q.2.name)) := by
  unfold mainRun
  by_cases hf : files = []
  · rw [if_pos hf]
    exact ⟨rfl, rfl, rfl⟩
  · rw [if_neg hf]
    exact processFiles_preview cfg env hprev files _ rfl

/-- Witness for C4: a concrete two-file preview run. -/
theorem claim4_preview_witness :
    (mainRun cfgPic envBase [pAJpg, pBJpg] [pAJpg, pBJpg]).fs = [pAJpg, pBJpg] ∧
    (mainRun cfgPic envBase [pAJpg, pBJpg] [pAJpg, pBJpg]).mapWritten = none ∧
    (mainRun cfgPic envBase [pAJpg, pBJpg] [pAJpg, pBJpg]).reported =
      (mainRun cfgPic envBase [pAJpg, pBJpg] [pAJpg, pBJpg]).ops.map
        (fun q => (q.1.name, q.2.name)) :=
  claim4_preview cfgPic envBase [pAJpg, pBJpg] [pAJpg, pBJpg] rfl

/-! ### Claim C5 -/

/-- C5 counterexample: the pattern `\x7b\x7bext\x7d\x7d` parses to pure
literals (no `ext` placeholder token is recognized), yet the plan for `a.jpg`
uses the expansion `\x7bext\x7d` verbatim instead of appending the original
extension `jpg` — the decision is keyed on the raw substring `\x7bext`, so
the claim as stated fails. -/
theorem claim5_counterexample :
    parseFmt (effPattern cfgBraceExt) =
      .ok [Tok.lit '{', Tok.lit 'e', Tok.lit 'x', Tok.lit 't', Tok.lit '}'] ∧
    ([Tok.lit '{', Tok.lit 'e', Tok.lit 'x', Tok.lit 't', Tok.lit '}'].all
      (fun t => match t with | Tok.lit _ => true | Tok.field _ _ => false)) = true ∧
    (mainRun cfgBraceExt envBase [pAJpg] [pAJpg]).recs.map FileRec.base =
      [['{', 'e', 'x', 't', '}']] ∧
    (mainRun cfgBraceExt envBase [pAJpg] [pAJpg]).recs.map FileRec.newName =
      [['{', 'e', 'x', 't', '}']] ∧
    [('{' : Char), 'e', 'x', 't', '}'] ≠
      sanitize_filename ['{', 'e', 'x', 't', '}'] ++ '.' :: extOfName pAJpg.name := by
  refine ⟨by rfl, by decide, by decide, by decide, by decide⟩

/-- C5 (amended): for every planned file, the full target name is the
sanitized expansion used verbatim when the (rewritten) pattern contains the
raw substring `\x7bext`, and otherwise the sanitized expansion with the
original extension appended (dot omitted when the extension is empty).  The
decision is a raw substring test, not a recognized-placeholder test. -/
theorem claim5_ext_decision (cfg : Config) (env : Env) (files fs₀ : List PathT) :
    ∀ rec ∈ (mainRun cfg env files fs₀).recs,
      rec.newName = (if hasSub extProbe (effPattern cfg) = true then
        sanitize_filename rec.base
      else sanitize_filename rec.base ++
        (if extOfName rec.src.name = [] then [] else '.' :: extOfName rec.src.name)) := by
  intro rec hrec
  unfold mainRun at hrec
  by_cases hf : files = []
  · rw [if_pos hf] at hrec
    cases hrec
  · rw [if_neg hf] at hrec
    rcases processFiles_recs_from cfg env files _ rec hrec with hmem | ⟨p, st2, b, _, hm⟩
    · cases hmem
    · rw [hm]
      rfl

/-- Witness for the amended C5: in the `pic` run over `a.jpg` the target name
is the sanitized expansion plus `.jpg`. -/
theorem claim5_ext_decision_witness :
    ((mainRun cfgPic envBase [pAJpg] [pAJpg]).recs.get ⟨0, by decide⟩).newName =
      (if hasSub extProbe (effPattern cfgPic) = true then
        sanitize_filename ((mainRun cfgPic envBase [pAJpg] [pAJpg]).recs.get ⟨0, by decide⟩).base
      else sanitize_filename ((mainRun cfgPic envBase [pAJpg] [pAJpg]).recs.get
          ⟨0, by decide⟩).base ++
        (if extOfName ((mainRun cfgPic envBase [pAJpg] [pAJpg]).recs.get
            ⟨0, by decide⟩).src.name = [] then []
         else '.' :: extOfName ((mainRun cfgPic envBase [pAJpg] [pAJpg]).recs.get
            ⟨0, by decide⟩).src.name)) :=
  claim5_ext_decision cfgPic envBase [pAJpg] [pAJpg] _ (List.get_mem _ _ _)

/-! ### Claim C6 -/

/-- C6: the counter value recorded for the i-th processed file is exactly
`start + i`, for every oracle environment — in particular independently of
whether any file's rename succeeds (the rename outcome is chosen by the
environment, which is universally quantified). -/
theorem claim6_counter (cfg : Config) (env : Env) (files fs₀ : List PathT) :
    ∀ i (hi : i < (mainRun cfg env files fs₀).recs.length),
      ((mainRun cfg env files fs₀).recs.get ⟨i, hi⟩).counterVal = cfg.start + i := by
  by_cases hf : files = []
  · intro i hi
    have hlen : (mainRun cfg env files fs₀).recs.length = 0 := by
      unfold mainRun
      rw [if_pos hf]
      rfl
    omega
  · intro i hi
    have hEq : (mainRun cfg env files fs₀).recs = (processFiles cfg env files
        { counter := cfg.start, fs := fs₀, ops := [], recs := [], reported := [] }).recs := by
      unfold mainRun
      rw [if_neg hf]
    have hi2 : i < (processFiles cfg env files
        { counter := cfg.start, fs := fs₀, ops := [], recs := [], reported := [] }).recs.length := by
      rw [← hEq]
      exact hi
    have hmap := processFiles_counterVals cfg env files
      { counter := cfg.start, fs := fs₀, ops := [], recs := [], reported := [] }
      cfg.start (by simp) (by simp)
    have h1 : ((processFiles cfg env files
        { counter := cfg.start, fs := fs₀, ops := [], recs := [], reported := [] }).recs.map
          FileRec.counterVal)[i]? = some (cfg.start + (i : Int)) := by
      rw [hmap, List.getElem?_map, List.getElem?_range (by simpa using hi2)]
      rfl
    rw [List.getElem?_map, List.getElem?_eq_getElem hi2] at h1
    simp only [Option.map_some'] at h1
    have h2 := Option.some.inj h1
    have h3 : (mainRun cfg env files fs₀).recs.get ⟨i, hi⟩ =
        (processFiles cfg env files
          { counter := cfg.start, fs := fs₀, ops := [], recs := [], reported := [] }).recs.get
          ⟨i, hi2⟩ := by
      rw [List.get_eq_getElem, List.get_eq_getElem]
      exact List.getElem_of_eq hEq hi
    rw [h3, List.get_eq_getElem]
    exact h2

/-- Witness for C6: second file of a two-file run gets counter `start + 1`,
even though its rename fails. -/
theorem claim6_counter_witness :
    ((mainRun cfgX envFailAll [pAJpg, pBJpg] [pAJpg, pBJpg]).recs.get
      ⟨1, by decide⟩).counterVal = cfgX.start + 1 :=
  claim6_counter cfgX envFailAll [pAJpg, pBJpg] [pAJpg, pBJpg] 1 (by decide)

/-! ### Claim C7 -/

theorem get_exif_none_cases (pil : Bool) (cap : PathT → Except Unit (Option DTime))
    (p : PathT) (h : cap p = .error () ∨ cap p = .ok none) :
    get_exif_datetime pil cap p = none := by
  unfold get_exif_datetime
  by_cases hp : pil = false
  · rw [if_pos hp]
  · rw [if_neg hp]
    rcases h with h | h <;> rw [h]

theorem get_exif_pil_false (cap : PathT → Except Unit (Option DTime)) (p : PathT) :
    get_exif_datetime false cap p = none := rfl

/-- C7: whether a run aborts depends only on the file list being non-empty
and on the pattern (never on the EXIF oracle), and for every processed file
the date value is total: the EXIF result when requested and available, with a
silent fallback to the file's modification time whenever the reader raises,
returns no date, is unavailable, or was not requested. -/
theorem claim7_exif (cfg : Config) (env : Env) (files fs₀ : List PathT) :
    (mainRun cfg env files fs₀).aborted =
      (decide (files ≠ []) && !fmtOkB (effPattern cfg)) ∧
    (∀ rec ∈ (mainRun cfg env files fs₀).recs,
      rec.dateVal = (if cfg.exifDate = true then
          get_exif_datetime env.pilAvailable env.exifCap rec.src else none).getD
          (env.mtimeOf rec.src) ∧
      ((env.exifCap rec.src = .error () ∨ env.exifCap rec.src = .ok none ∨
        env.pilAvailable = false ∨ cfg.exifDate = false) →
        rec.dateVal = env.mtimeOf rec.src)) := by
  constructor
  · unfold mainRun
    by_cases hf : files = []
    · rw [if_pos hf]
      subst hf
      simp
    · rw [if_neg hf]
      exact processFiles_aborted cfg env files _
  · intro rec hrec
    unfold mainRun at hrec
    by_cases hf : files = []
    · rw [if_pos hf] at hrec
      cases hrec
    · rw [if_neg hf] at hrec
      rcases processFiles_recs_from cfg env files _ rec hrec with hmem | ⟨p, st2, b, _, hm⟩
      · cases hmem
      · rw [hm]
        refine ⟨rfl, ?_⟩
        intro hcase
        have hcase2 : env.exifCap p = .error () ∨ env.exifCap p = .ok none ∨
            env.pilAvailable = false ∨ cfg.exifDate = false := hcase
        show dateOf cfg env p = env.mtimeOf p
        unfold dateOf
        rcases hcase2 with hcap | hcap | hpil | hexif
        · by_cases hE : cfg.exifDate = true
          · rw [if_pos hE, get_exif_none_cases _ _ _ (Or.inl hcap)]
            rfl
          · rw [if_neg hE]
            rfl
        · by_cases hE : cfg.exifDate = true
          · rw [if_pos hE, get_exif_none_cases _ _ _ (Or.inr hcap)]
            rfl
          · rw [if_neg hE]
            rfl
        · by_cases hE : cfg.exifDate = true
          · rw [if_pos hE]
            show (get_exif_datetime env.pilAvailable env.exifCap p).getD (env.mtimeOf p) =
              env.mtimeOf p
            rw [hpil]
            rfl
          · rw [if_neg hE]
            rfl
        · rw [if_neg (by rw [hexif]; exact Bool.false_ne_true)]
          rfl

/-- Witness for C7: with EXIF requested and a reader that always raises, the
run does not abort and the date falls back to the modification time. -/
theorem claim7_exif_witness :
    (mainRun cfgPicExif envRaise [pAJpg] [pAJpg]).aborted =
      (decide (([pAJpg] : List PathT) ≠ []) && !fmtOkB (effPattern cfgPicExif)) ∧
    ((mainRun cfgPicExif envRaise [pAJpg] [pAJpg]).recs.get ⟨0, by decide⟩).dateVal =
      envRaise.mtimeOf
        (((mainRun cfgPicExif envRaise [pAJpg] [pAJpg]).recs.get ⟨0, by decide⟩).src) :=
  ⟨(claim7_exif cfgPicExif envRaise [pAJpg] [pAJpg]).1,
    ((claim7_exif cfgPicExif envRaise [pAJpg] [pAJpg]).2 _ (List.get_mem _ _ _)).2 (Or.inl rfl)⟩

/-! ### Claim C8 -/

theorem undoRun_getElem (m : List (PathT × PathT)) (fs : List PathT) (i : Nat)
    (hi : i < m.length) :
    (undoRun m fs).recs[i]? = some ⟨(m.get ⟨i, hi⟩).1, (m.get ⟨i, hi⟩).2,
      decide ((m.get ⟨i, hi⟩).2 ∈ (undoRun (m.take i) fs).fs ∧
              (m.get ⟨i, hi⟩).1 ∉ (undoRun (m.take i) fs).fs)⟩ := by
  have hdrop : m.drop i = ((m.get ⟨i, hi⟩).1, (m.get ⟨i, hi⟩).2) :: m.drop (i + 1) := by
    rw [Prod.mk.eta, List.get_eq_getElem]
    exact List.drop_eq_getElem_cons hi
  have hrun : undoRun m fs = undoGo (m.drop i) (undoRun (m.take i) fs) := by
    conv_lhs => rw [← List.take_append_drop i m]
    unfold undoRun
    rw [undoGo_append]
  obtain ⟨g1, _, _⟩ := undoGo_split (m.drop i) (undoRun (m.take i) fs)
  have hlen : (undoRun (m.take i) fs).recs.length = i := by
    rw [undoRun_recs_length]
    simp only [List.length_take]
    omega
  rw [hrun, g1, List.getElem?_append_right (by omega), hlen, Nat.sub_self]
  by_cases hc : (m.get ⟨i, hi⟩).2 ∈ (undoRun (m.take i) fs).fs ∧
      (m.get ⟨i, hi⟩).1 ∉ (undoRun (m.take i) fs).fs
  · rw [hdrop]
    rw [(undoRun_cons_pos _ _ _ _ hc).1]
    rw [List.getElem?_cons_zero, decide_eq_true hc]
  · rw [hdrop]
    rw [(undoRun_cons_neg _ _ _ _ hc).1]
    rw [List.getElem?_cons_zero, decide_eq_false hc]

/-- C8 counterexample: for the mapping `[(a, a_1), (b, a)]` (producible by an
apply run) over the filesystem `[a_1, a]`, the second undo run of the same
mapping performs a rename (it reverses the first record, which the first run
had skipped) — so "running undo a second time performs no rename" fails. -/
theorem claim8_counterexample :
    (undoRun mapCross (undoRun mapCross [pa1, pa]).fs).recs.map UndoRec.reversed =
      [true, false] ∧
    (undoRun mapCross (undoRun mapCross [pa1, pa]).fs).reversedOps = [(pa1, pa)] := by
  refine ⟨by decide, by decide⟩

/-- C8 (amended): undo processes every record (none is fatal), reverses the
i-th record exactly when, at its turn, the destination exists and the source
does not; and when the mapping's records share no paths at all, the second
undo run of the same mapping skips every record.  (For mappings whose records
share paths, a second run can perform renames, per the counterexample.) -/
theorem claim8_undo (m : List (PathT × PathT)) (fs : List PathT) :
    (undoRun m fs).recs.length = m.length ∧
    (∀ i (hi : i < m.length),
      (undoRun m fs).recs[i]? = some ⟨(m.get ⟨i, hi⟩).1, (m.get ⟨i, hi⟩).2,
        decide ((m.get ⟨i, hi⟩).2 ∈ (undoRun (m.take i) fs).fs ∧
                (m.get ⟨i, hi⟩).1 ∉ (undoRun (m.take i) fs).fs)⟩) ∧
    ((pathsOf m).Nodup →
      ∀ rec ∈ (undoRun m (undoRun m fs).fs).recs, rec.reversed = false) :=
  ⟨undoRun_recs_length m fs, fun i hi => undoRun_getElem m fs i hi, undoRun_double m fs⟩

/-- Witness for the amended C8: the disjoint mapping `[(a, b)]` over `[b]` is
reversed once and the second run skips it. -/
theorem claim8_undo_witness :
    (undoRun mapDisjoint [pb]).recs.length = mapDisjoint.length ∧
    (∀ rec ∈ (undoRun mapDisjoint (undoRun mapDisjoint [pb]).fs).recs,
      rec.reversed = false) :=
  ⟨(claim8_undo mapDisjoint [pb]).1, (claim8_undo mapDisjoint [pb]).2.2 (by decide)⟩

end BatchRename
